import Mathlib

/-!
# png-crc-fix: chunk decoder and CRC corrector

A shallow embedding of `main.go`: the format gate `isPng`, the chunk decoder
`readChunks`, the methods of `pngChunk`, and the body of the walk function of
`main` (gate, decode, correction loop).

Model of the open file (`*os.File` on a regular file): a byte list and a read/write
position.  One `Read` of `n` bytes returns the bytes at the position, as many as remain
but at most `min n 2^30` (a larger request comes back short), `io.EOF` when `n > 0` and
nothing remains, and `0, nil` for an empty buffer.
`Seek` to a negative offset fails and leaves the position where it was; a seek
past the end is allowed.  A write overwrites in place and extends the file when it
runs past the end.  Whether a write fails is decided by an oracle on the write
position, so that the behaviour on I/O failure can be stated.
-/

namespace PngCrcFix

/-- One byte of the file. -/
abbrev Byte := Fin 256

/-! ## Integers and byte order -/

/-- Conversion of an integer to `int64` (two's complement wrap-around). -/
def wrapInt64 (x : Int) : Int := (x + 2 ^ 63) % 2 ^ 64 - 2 ^ 63

/-- Big-endian value of a byte string (`binary.BigEndian.Uint32` on 4 bytes). -/
def be32 (bs : List Byte) : Nat := bs.foldl (fun acc b => acc * 256 + b.val) 0

/-- The 4 big-endian bytes of a `uint32` (`binary.BigEndian.PutUint32`). -/
def putUint32 (v : Nat) : List Byte :=
  [Fin.ofNat (v / 2 ^ 24), Fin.ofNat (v / 2 ^ 16), Fin.ofNat (v / 2 ^ 8), Fin.ofNat v]

/-! ## hash/crc32 (Go standard library, table-driven reference implementation) -/

/-- The IEEE polynomial in reversed bit order, `crc32.IEEE`. -/
def crcIEEE : Nat := 0xedb88320

/-- One bit step of the table construction. -/
def crcBit (poly crc : Nat) : Nat :=
  if crc % 2 = 1 then (crc >>> 1) ^^^ poly else crc >>> 1

/-- Entry `i` of `crc32.MakeTable(poly)`: eight bit steps from `i`. -/
def crcTable (poly i : Nat) : Nat :=
  crcBit poly (crcBit poly (crcBit poly (crcBit poly
    (crcBit poly (crcBit poly (crcBit poly (crcBit poly i)))))))

/-- The byte loop of `crc32.Update`: `crc = tab[byte(crc)^v] ^ (crc >> 8)`. -/
def crcLoop (poly crc : Nat) (p : List Byte) : Nat :=
  p.foldl (fun c v => crcTable poly ((c % 256) ^^^ v.val) ^^^ (c >>> 8)) crc

/-- The function `crc32.Checksum(p, crc32.MakeTable(crc32.IEEE))`: start from the
complement of 0, run the byte loop, complement the result. -/
def crc32Checksum (p : List Byte) : Nat :=
  crcLoop crcIEEE (0 ^^^ 0xffffffff) p ^^^ 0xffffffff

/-! ## The open file -/

/-- Errors of the I/O layer. -/
inductive IOError where
  | eof
  | unexpectedEOF
  | einval
  | eio
deriving DecidableEq, Repr

/-- An open regular file: content and current position. -/
structure File where
  data : List Byte
  pos : Nat
deriving DecidableEq, Repr

/-- The method `Seek(off, os.SEEK_SET)`: a negative offset is an error and the position stays. -/
def File.seek (f : File) (off : Int) : Option IOError × File :=
  if off < 0 then (some IOError.einval, f) else (none, { f with pos := off.toNat })

/-- The method `Seek(0, os.SEEK_CUR)`: the current position. -/
def File.tell (f : File) : Int := (f.pos : Int)

/-- The most bytes one `Read` call on an `os.File` transfers (`maxRW` of the package
`internal/poll`): a larger buffer is cut to this size before the system call. -/
def maxRW : Nat := 2 ^ 30

/-- The method `Read(buf)` with `len(buf) = n`, one call: the bytes read (at most `maxRW`
of them), the error, the file after. -/
def File.read (f : File) (n : Nat) : (List Byte × Option IOError) × File :=
  let got := (f.data.drop f.pos).take (min n maxRW)
  if n = 0 then (([], none), f)
  else if got.length = 0 then (([], some IOError.eof), f)
  else ((got, none), { f with pos := f.pos + got.length })

/-- The function `binary.Read` of a fixed-size value of `n > 0` bytes (`io.ReadFull`): all
`n` bytes or an error; on a short read the bytes that were there are consumed. -/
def File.binaryRead (f : File) (n : Nat) : Except IOError (List Byte) × File :=
  let got := (f.data.drop f.pos).take n
  let f1 : File := { f with pos := f.pos + got.length }
  if got.length = n then (Except.ok got, f1)
  else if got.length = 0 then (Except.error IOError.eof, f1)
  else (Except.error IOError.unexpectedEOF, f1)

/-- Content after writing `bs` at position `pos` (zero-filled gap past the end). -/
def overwrite (data : List Byte) (pos : Nat) (bs : List Byte) : List Byte :=
  data.take pos ++ List.replicate (pos - data.length) 0 ++ bs ++ data.drop (pos + bs.length)

/-- The method `Write(bs)`: `wfail p` says that a write at position `p` fails. A failed
write is taken to transfer none of its bytes; a write that fails part-way is not
modelled. -/
def File.write (wfail : Nat → Bool) (f : File) (bs : List Byte) : Option IOError × File :=
  if wfail f.pos then (some IOError.eio, f)
  else (none, { data := overwrite f.data f.pos bs, pos := f.pos + bs.length })

/-! ## main.go -/

/-- The constant `chunkStartOffset`. -/
def chunkStartOffset : Int := 8

/-- The constant `endChunk`, the ASCII string "IEND". -/
def endChunk : List Byte := [0x49, 0x45, 0x4e, 0x44]

/-- The struct `pngChunk`; the field `Type` is spelled `Typ`. -/
structure pngChunk where
  Offset : Int
  Length : Nat
  Typ : List Byte
  Data : List Byte
  CRC : Nat
deriving DecidableEq, Repr

/-- The method `Bytes`: type followed by data. -/
def pngChunk.Bytes (p : pngChunk) : List Byte := p.Typ ++ p.Data

/-- The method `CalculateCRC`. -/
def pngChunk.CalculateCRC (p : pngChunk) : Nat := crc32Checksum p.Bytes

/-- The method `CRCIsValid`. -/
def pngChunk.CRCIsValid (p : pngChunk) : Bool := p.CRC == p.CalculateCRC

/-- The method `CRCOffset`: `p.Offset + int64(8+p.Length)`, the sum `8+p.Length` being
taken in `uint32` and the outer sum in `int64`. -/
def pngChunk.CRCOffset (p : pngChunk) : Int :=
  wrapInt64 (p.Offset + (((8 + p.Length) % 2 ^ 32 : Nat) : Int))

/-- The closure `readChunk` of `readChunks`: one chunk at the current position, or a
read error. The error of the length read is dropped (the length stays 0). The payload
is read with one `Read`, whose count is only compared with 0: what the call does not
fill of `Data` stays zero, and the CRC is read from where the call stopped. -/
def readChunk (f : File) : Option pngChunk × File :=
  let offset := f.tell
  let r1 := f.binaryRead 4
  let length := match r1.1 with
    | Except.ok bs => be32 bs
    | Except.error _ => 0
  let r2 := r1.2.binaryRead 4
  match r2.1 with
  | Except.error _ => (none, r2.2)
  | Except.ok ty =>
    let r3 := r2.2.read length
    if r3.1.1.length = 0 ∨ r3.1.2 ≠ none then (none, r3.2)
    else
      let data := r3.1.1 ++ List.replicate (length - r3.1.1.length) 0
      let r4 := r3.2.binaryRead 4
      match r4.1 with
      | Except.error _ => (none, r4.2)
      | Except.ok crc =>
        (some { Offset := offset, Length := length, Typ := ty, Data := data, CRC := be32 crc },
         r4.2)

/-- The `for` loop of `readChunks`, as the chunks appended after `last`: while the type
of the last chunk is not `endChunk`, read a chunk; a read error breaks the loop. -/
def readLoop : Nat → File → pngChunk → List pngChunk × File
  | 0, f, _ => ([], f)
  | fuel + 1, f, last =>
    if last.Typ = endChunk then ([], f)
    else
      match readChunk f with
      | (none, f1) => ([], f1)
      | (some chunk, f1) =>
        let r := readLoop fuel f1 chunk
        (chunk :: r.1, r.2)

/-- The function `readChunks`. Every chunk read moves the position forward, so the
length of the content bounds the number of iterations. -/
def readChunks (reader : File) : List pngChunk × File :=
  let f0 := (reader.seek chunkStartOffset).2
  match readChunk f0 with
  | (none, f1) => ([], f1)
  | (some chunk, f1) =>
    let r := readLoop reader.data.length f1 chunk
    (chunk :: r.1, r.2)

/-- The function `isPng`: the 3 bytes at offset 1 are "PNG". -/
def isPng (f : File) : Bool × File :=
  let f1 := (f.seek 1).2
  let r := f1.read 3
  let magic := r.1.1 ++ List.replicate (3 - r.1.1.length) (0 : Byte)
  (decide (magic = [0x50, 0x4e, 0x47]), r.2)

/-- State of the correction loop of `main`: the flag `corrected`, the file, and the
seek-and-write calls made so far (seek target and value written). -/
structure LoopState where
  corrected : Bool
  file : File
  writes : List (Int × Nat)
deriving DecidableEq, Repr

/-- Body of the loop `for _, chunk := range chunks` of `main`; the results of `Seek`
and `binary.Write` are not looked at. -/
def correctChunk (wfail : Nat → Bool) (st : LoopState) (chunk : pngChunk) : LoopState :=
  if chunk.CRCIsValid = false then
    let f1 := (st.file.seek chunk.CRCOffset).2
    let f2 := (f1.write wfail (putUint32 chunk.CalculateCRC)).2
    { corrected := true, file := f2,
      writes := st.writes ++ [(chunk.CRCOffset, chunk.CalculateCRC)] }
  else st

/-- The correction loop of `main` over the decoded chunks. -/
def correctionLoop (wfail : Nat → Bool) (f : File) (chunks : List pngChunk) : LoopState :=
  chunks.foldl (correctChunk wfail) { corrected := false, file := f, writes := [] }

/-- What the walk function of `main` does with one opened file. -/
structure Outcome where
  err : Option IOError
  corrected : Bool
  decoded : List pngChunk
  writes : List (Int × Nat)
  file : File
deriving DecidableEq, Repr

/-- The walk function of `main` from the point where the file is open: gate, decode,
correction loop, `return nil`. -/
def walkFile (wfail : Nat → Bool) (file : File) : Outcome :=
  let g := isPng file
  if g.1 = false then
    { err := none, corrected := false, decoded := [], writes := [], file := g.2 }
  else
    let r := readChunks g.2
    let st := correctionLoop wfail r.2 r.1
    { err := none, corrected := st.corrected, decoded := r.1, writes := st.writes,
      file := st.file }

/-- A freshly opened file with the given content. -/
def openFile (data : List Byte) : File := { data := data, pos := 0 }

/-- No write fails. -/
def noFail : Nat → Bool := fun _ => false

/-- Per-file processing on a healthy device: the flag and the content afterwards. -/
def process (data : List Byte) : Bool × List Byte :=
  let o := walkFile noFail (openFile data)
  (o.corrected, o.file.data)

/-! ## Encoded chunks (the layout the decoder expects) -/

/-- The bytes of a chunk in the file: length, type, payload, CRC. -/
def encodeChunk (c : pngChunk) : List Byte :=
  putUint32 c.Length ++ (c.Typ ++ (c.Data ++ putUint32 c.CRC))

/-- A chunk record that fits the layout: 4 type bytes, payload of the declared length,
length and CRC in 32 bits. -/
def pngChunk.WellFormed (c : pngChunk) : Prop :=
  c.Typ.length = 4 ∧ c.Data.length = c.Length ∧ c.Length < 2 ^ 32 ∧ c.CRC < 2 ^ 32

instance (c : pngChunk) : Decidable c.WellFormed := by
  unfold pngChunk.WellFormed; exact inferInstance

/-- A sequence of chunks one after the other. -/
def encodeChunks : List pngChunk → List Byte
  | [] => []
  | c :: cs => encodeChunk c ++ encodeChunks cs

/-! ## Concrete files used as witnesses and failing inputs -/

/-- The 8-byte PNG signature. -/
def pngHeader : List Byte := [0x89, 0x50, 0x4e, 0x47, 0x0d, 0x0a, 0x1a, 0x0a]

/-- A chunk of type IDAT with one payload byte and its right CRC. -/
def goodIDAT : pngChunk :=
  { Offset := 8, Length := 1, Typ := [0x49, 0x44, 0x41, 0x54], Data := [7], CRC := 0xb65ce84b }

/-- The standard IEND chunk: empty payload, CRC 0xAE426082. -/
def goodIEND : pngChunk :=
  { Offset := 21, Length := 0, Typ := endChunk, Data := [], CRC := 0xae426082 }

/-- The IEND chunk with the lowest bit of its stored CRC flipped. -/
def flippedIEND : pngChunk :=
  { Offset := 21, Length := 0, Typ := endChunk, Data := [], CRC := 0xae426083 }

/-- A PNG-signature file of two chunks, IDAT (valid) and IEND (CRC flipped). -/
def fileFlippedIEND : List Byte := pngHeader ++ encodeChunks [goodIDAT, flippedIEND]

/-- A chunk record with the largest lengths: `8 + Length` is `2^32`. -/
def wrapChunk : pngChunk :=
  { Offset := 8, Length := 0xfffffff8, Typ := [0x49, 0x44, 0x41, 0x54], Data := [], CRC := 0 }

/-- A valid two-chunk PNG-signature file followed by two bytes of garbage. -/
def fileTrailing : List Byte := pngHeader ++ encodeChunks [goodIDAT, goodIEND] ++ [9, 9]

/-- A file with a GIF signature followed by a complete chunk with a wrong CRC. -/
def fileNotPng : List Byte :=
  [0x47, 0x49, 0x46, 0x38, 0x39, 0x61, 0, 0] ++
    encodeChunks [{ goodIDAT with CRC := 0 }, goodIEND]

/-- A chunk of type IDAT with one payload byte and stored CRC 0 (wrong). -/
def badIDAT : pngChunk :=
  { Offset := 8, Length := 1, Typ := [0x49, 0x44, 0x41, 0x54], Data := [7], CRC := 0 }

/-- A chunk of type tEXt with two payload bytes and stored CRC 0 (wrong). -/
def badTEXT : pngChunk :=
  { Offset := 21, Length := 2, Typ := [0x74, 0x45, 0x58, 0x74], Data := [1, 2], CRC := 0 }

/-- A PNG-signature file whose two chunks both have a wrong CRC. -/
def fileTwoBad : List Byte := pngHeader ++ encodeChunks [badIDAT, badTEXT]

/-- A device on which the write at position 17 (the CRC field of the first chunk of
`fileTwoBad`) fails. -/
def failAt17 : Nat → Bool := fun p => decide (p = 17)

/-- A chunk of type IEND that carries one payload byte, with its right CRC. -/
def iendWithData : pngChunk :=
  { Offset := 8, Length := 1, Typ := endChunk, Data := [5], CRC := 0xa170bb6e }

/-- A stream that ends inside the payload of its third chunk (2 of 5 bytes), the first
chunk being of type IEND. -/
def fileIENDFirst : List Byte :=
  pngHeader ++ (encodeChunk iendWithData ++ (encodeChunk goodIDAT ++
    (putUint32 5 ++ ([0x49, 0x44, 0x41, 0x54] ++ [1, 2]))))

/-- A stream that ends inside the payload of its third chunk (2 of 5 bytes), after two
complete chunks with wrong CRCs. -/
def fileTruncated : List Byte :=
  pngHeader ++ (encodeChunk badIDAT ++ (encodeChunk badTEXT ++
    (putUint32 5 ++ ([0x49, 0x44, 0x41, 0x54] ++ [1, 2]))))

/-- A chunk of declared length `len` with type bytes FF FF FF FF, an all-zero payload
and stored CRC 0; its CRC-32 is 0xFFFFFFFF whatever `len` is. -/
def hugeChunk (len : Nat) : pngChunk :=
  { Offset := 8, Length := len, Typ := [255, 255, 255, 255], Data := List.replicate len 0,
    CRC := 0 }

/-- The PNG signature followed by the one chunk `hugeChunk len`. -/
def hugeFile (len : Nat) : List Byte := pngHeader ++ encodeChunk (hugeChunk len)

/-! ## Closed forms and spec-side definitions -/

/-- What `readChunk` returns at position `p` of the content `d`, in closed form. A chunk
is returned when the declared length is not 0 and the twelve bytes of fields together
with the part of the payload that one `Read` transfers (`min Length maxRW` bytes) lie
inside the content; the stored CRC is taken from the four bytes after that part, and
the rest of `Data` is zero. -/
def chunkAt (d : List Byte) (p : Nat) : Option pngChunk :=
  if be32 ((d.drop p).take 4) ≠ 0 ∧
      p + 12 + min (be32 ((d.drop p).take 4)) maxRW ≤ d.length then
    some { Offset := (p : Int),
           Length := be32 ((d.drop p).take 4),
           Typ := (d.drop (p + 4)).take 4,
           Data := (d.drop (p + 8)).take (min (be32 ((d.drop p).take 4)) maxRW) ++
             List.replicate
               (be32 ((d.drop p).take 4) - min (be32 ((d.drop p).take 4)) maxRW) 0,
           CRC := be32 ((d.drop (p + 8 + min (be32 ((d.drop p).take 4)) maxRW)).take 4) }
  else none

/-- The chunks `cs` are what successive chunk reads return in `d`, the first read at
position `p`, each next one where the previous read stopped. -/
def LaidOut (d : List Byte) : Nat → List pngChunk → Prop
  | _, [] => True
  | p, c :: cs => chunkAt d p = some c ∧ LaidOut d (p + (12 + min c.Length maxRW)) cs

/-- The function `readChunks` with `fuel` iterations allowed to its loop. -/
def readChunksWith (fuel : Nat) (reader : File) : List pngChunk × File :=
  let f0 := (reader.seek chunkStartOffset).2
  match readChunk f0 with
  | (none, f1) => ([], f1)
  | (some chunk, f1) =>
    let r := readLoop fuel f1 chunk
    (chunk :: r.1, r.2)

/-- The fields of a chunk other than the stored CRC. -/
def pngChunk.sansCRC (c : pngChunk) : Int × Nat × List Byte × List Byte :=
  (c.Offset, c.Length, c.Typ, c.Data)
/-- Two PNG-signature files that differ only in the 4 stored-CRC bytes of the first
chunk. -/
def fileTwoBadOther : List Byte := pngHeader ++ encodeChunks [goodIDAT, badTEXT]

/-- The ASCII string "PNG" that `isPng` compares with. -/
def pngMagic : List Byte := [0x50, 0x4e, 0x47]
/-- A PNG-signature stream in which a chunk of type IEND (with a payload byte) is
followed by a further complete chunk. -/
def fileAfterIEND : List Byte :=
  pngHeader ++ encodeChunks [goodIDAT, { iendWithData with Offset := 21 }, badTEXT]

/-- One bit of the standard CRC-32 in its reflected form: shift the register right and,
when the bit shifted out is 1, XOR in the reflected IEEE polynomial 0xEDB88320. -/
def crc32SpecBit (reg : Nat) : Nat :=
  if reg % 2 = 1 then (reg / 2) ^^^ 0xedb88320 else reg / 2

/-- One byte of the standard CRC-32: XOR the byte into the low end of the register, then
eight bit steps. -/
def crc32SpecByte (reg : Nat) (b : Byte) : Nat := crc32SpecBit^[8] (reg ^^^ b.val)

/-- The standard CRC-32 as the spec words it: IEEE polynomial, reflected, register
initialised to all-ones, final XOR with all-ones. -/
def crc32Spec (p : List Byte) : Nat := p.foldl crc32SpecByte 0xffffffff ^^^ 0xffffffff

/-- The ASCII string "123456789", the customary check input of CRC catalogues. -/
def crcCheckInput : List Byte := [0x31, 0x32, 0x33, 0x34, 0x35, 0x36, 0x37, 0x38, 0x39]

/-- A chunk whose payload is 17 bytes longer than one `Read` transfers: type bytes
FF FF FF FF, payload `maxRW` zero bytes, four more zero bytes and the 13 bytes of the
chunk `iendWithData`; stored CRC `crc`. -/
def longChunk (crc : Nat) : pngChunk :=
  { Offset := 8, Length := maxRW + 17, Typ := [255, 255, 255, 255],
    Data := List.replicate maxRW 0 ++ ([0, 0, 0, 0] ++ encodeChunk iendWithData), CRC := crc }

/-- The CRC-32 of the type and payload of `longChunk`, 0x47710926. -/
def longChunkCRC : Nat := 0x47710926

/-- The PNG signature followed by the container of `longChunk crc` and the standard IEND
chunk. -/
def longFile (crc : Nat) : List Byte := pngHeader ++ encodeChunks [longChunk crc, goodIEND]

/-- The PNG signature followed by one chunk with a payload 8 bytes longer than one `Read`
transfers and five more bytes: length `maxRW + 8`, type FF FF FF FF, payload (`maxRW`
zero bytes, then 00 00 00 00 00 00 00 01), the 4 bytes `crcField` in the stored-CRC
field, then 05 00 00 00 00. -/
def tagFile (crcField : List Byte) : List Byte :=
  pngHeader ++ (putUint32 (maxRW + 8) ++ ([255, 255, 255, 255] ++
    (List.replicate maxRW 0 ++ ([0, 0, 0, 0] ++ (putUint32 1 ++
      (crcField ++ [5, 0, 0, 0, 0]))))))

/-- The chunk that the decoder makes of the 13 bytes from `maxRW + 20` on of
`tagFile crcField`. -/
def tagChunk (crcField : List Byte) : pngChunk :=
  { Offset := ((maxRW + 20 : Nat) : Int), Length := 1, Typ := crcField, Data := [5], CRC := 0 }

/-! # Theorems -/

theorem putUint32_length (v : Nat) : (putUint32 v).length = 4 := rfl

theorem be32_putUint32 (v : Nat) (h : v < 2 ^ 32) : be32 (putUint32 v) = v := by
  simp only [be32, putUint32, List.foldl, Fin.ofNat]
  omega

theorem encodeChunk_length (c : pngChunk) (h1 : c.Typ.length = 4)
    (h2 : c.Data.length = c.Length) : (encodeChunk c).length = 12 + c.Length := by
  simp only [encodeChunk, List.length_append, putUint32_length, h1, h2]
  omega

/-- The bytes read at the end of `pre` are the ones that follow `pre`. -/
theorem window_eq (pre bs rest : List Byte) :
    ((pre ++ (bs ++ rest)).drop pre.length).take bs.length = bs := by
  rw [List.drop_left, List.take_left]

theorem binaryRead_eq (f : File) (pre bs rest : List Byte) (n : Nat)
    (hd : f.data = pre ++ (bs ++ rest)) (hp : f.pos = pre.length) (hn : bs.length = n) :
    f.binaryRead n = (Except.ok bs, { f with pos := f.pos + n }) := by
  have hw : (f.data.drop f.pos).take n = bs := by
    rw [hd, hp, ← hn]; exact window_eq pre bs rest
  simp only [File.binaryRead, hw, hn, if_true]

theorem maxRW_pos : 0 < maxRW := by unfold maxRW; norm_num

theorem maxRW_lt : maxRW < 2 ^ 32 - 8 := by unfold maxRW; norm_num

theorem min_maxRW (n : Nat) :
    (n ≤ maxRW ∧ min n maxRW = n) ∨ (maxRW < n ∧ min n maxRW = maxRW) := by
  rw [Nat.min_def]; split <;> omega

/-- One `Read` into a buffer of `n > 0` bytes where `bs` stands at the position, `bs`
being as long as one call transfers. -/
theorem read_window (f : File) (pre bs rest : List Byte) (n : Nat)
    (hd : f.data = pre ++ (bs ++ rest)) (hp : f.pos = pre.length)
    (hn : bs.length = min n maxRW) (h0 : n ≠ 0) :
    f.read n = ((bs, none), { f with pos := f.pos + bs.length }) := by
  have hw : (f.data.drop f.pos).take (min n maxRW) = bs := by
    rw [hd, hp, ← hn]; exact window_eq pre bs rest
  have hb : bs.length ≠ 0 := by
    have := maxRW_pos
    rcases min_maxRW n with ⟨_, h⟩ | ⟨_, h⟩ <;> omega
  simp only [File.read, hw, h0, if_false, hb]

theorem read_eq (f : File) (pre bs rest : List Byte) (n : Nat)
    (hd : f.data = pre ++ (bs ++ rest)) (hp : f.pos = pre.length) (hn : bs.length = n)
    (h0 : n ≠ 0) (hcap : n ≤ maxRW) :
    f.read n = ((bs, none), { f with pos := f.pos + n }) := by
  have h := read_window f pre bs rest n hd hp (by rw [Nat.min_eq_left hcap]; exact hn) h0
  rw [hn] at h
  exact h

/-- Decoding where a length field `len > 0`, a type, `body` and four more bytes stand at
the position, `body` being the part of the payload that one `Read` transfers: the CRC is
taken from the four bytes after `body`, and the rest of `Data` stays zero. -/
theorem readChunk_window (f : File) (pre ty body x rest : List Byte) (len : Nat)
    (hd : f.data = pre ++ (putUint32 len ++ (ty ++ (body ++ (x ++ rest)))))
    (hp : f.pos = pre.length) (hty : ty.length = 4) (hlen : len < 2 ^ 32) (h0 : len ≠ 0)
    (hb : body.length = min len maxRW) (hx : x.length = 4) :
    readChunk f =
      (some
        { Offset := (pre.length : Int), Length := len, Typ := ty,
          Data := body ++ List.replicate (len - body.length) 0, CRC := be32 x },
       { f with pos := pre.length + (12 + body.length) }) := by
  obtain ⟨data, pos⟩ := f
  simp only at hd hp
  subst hp
  have e1 := binaryRead_eq ⟨data, pre.length⟩ pre (putUint32 len)
    (ty ++ (body ++ (x ++ rest))) 4 hd rfl rfl
  have e2 := binaryRead_eq ⟨data, pre.length + 4⟩ (pre ++ putUint32 len) ty
    (body ++ (x ++ rest)) 4
    (by simp [hd, List.append_assoc])
    (by simp [putUint32_length]) hty
  have e3 := read_window ⟨data, pre.length + 4 + 4⟩ (pre ++ putUint32 len ++ ty) body
    (x ++ rest) len
    (by simp [hd, List.append_assoc])
    (by simp [putUint32_length, hty]) hb h0
  have e4 := binaryRead_eq ⟨data, pre.length + 4 + 4 + body.length⟩
    (pre ++ putUint32 len ++ ty ++ body) x rest 4
    (by simp [hd, List.append_assoc])
    (by simp [putUint32_length, hty]; omega) hx
  have hb0 : body.length ≠ 0 := by
    have := maxRW_pos
    rcases min_maxRW len with ⟨_, h⟩ | ⟨_, h⟩ <;> omega
  simp only [readChunk, e1, e2, e3, e4, be32_putUint32 _ hlen, File.tell]
  simp [hb0]
  omega

/-- Decoding a complete chunk with a non-empty payload that stands at the position, the
payload being no longer than one `Read` transfers. -/
theorem readChunk_encoded (f : File) (pre rest : List Byte) (c : pngChunk)
    (hd : f.data = pre ++ (encodeChunk c ++ rest)) (hp : f.pos = pre.length)
    (hw : c.WellFormed) (h0 : c.Length ≠ 0) (hcap : c.Length ≤ maxRW) :
    readChunk f = (some { c with Offset := (pre.length : Int) },
      { f with pos := pre.length + (12 + c.Length) }) := by
  obtain ⟨hty, hdat, hlen, hcrc⟩ := hw
  have h := readChunk_window f pre c.Typ c.Data (putUint32 c.CRC) rest c.Length
    (by rw [hd]; simp [encodeChunk, List.append_assoc]) hp hty hlen h0
    (by rw [Nat.min_eq_left hcap]; exact hdat) rfl
  rw [h, hdat, be32_putUint32 _ hcrc, Nat.sub_self, List.replicate_zero, List.append_nil]

/-! ## Reading leaves the content alone -/

theorem seek_data (f : File) (off : Int) : (f.seek off).2.data = f.data := by
  unfold File.seek; split <;> rfl

theorem read_data (f : File) (n : Nat) : (f.read n).2.data = f.data := by
  unfold File.read; simp only; split
  · rfl
  · split <;> rfl

theorem binaryRead_data (f : File) (n : Nat) : (f.binaryRead n).2.data = f.data := by
  unfold File.binaryRead; simp only; split
  · rfl
  · split <;> rfl

theorem readChunk_data (f : File) : (readChunk f).2.data = f.data := by
  unfold readChunk
  simp only
  split
  · simp [binaryRead_data]
  · split
    · simp [read_data, binaryRead_data]
    · split <;> simp [read_data, binaryRead_data]

theorem readLoop_data (fuel : Nat) : ∀ (f : File) (last : pngChunk),
    (readLoop fuel f last).2.data = f.data := by
  induction fuel with
  | zero => intro f last; rfl
  | succ n ih =>
    intro f last
    unfold readLoop
    split
    · rfl
    · have hd := readChunk_data f
      split
      · next f1 h => rw [h] at hd; exact hd
      · next chunk f1 h => rw [h] at hd; simp only; rw [ih, hd]

theorem readChunks_data (f : File) : (readChunks f).2.data = f.data := by
  unfold readChunks
  have hd := readChunk_data (f.seek chunkStartOffset).2
  simp only
  split
  · next f1 h => rw [h] at hd; rw [hd, seek_data]
  · next chunk f1 h => rw [h] at hd; simp only; rw [readLoop_data, hd, seek_data]

theorem isPng_data (f : File) : (isPng f).2.data = f.data := by
  unfold isPng; simp only [read_data, seek_data]


/-! ## Read errors -/

/-- At or past the end of the content nothing is decoded. -/
theorem readChunk_eof (f : File) (h : f.data.length ≤ f.pos) : (readChunk f).1 = none := by
  have hdrop : f.data.drop f.pos = [] := List.drop_of_length_le h
  have e1 : f.binaryRead 4 = (Except.error IOError.eof, f) := by
    simp [File.binaryRead, hdrop]
  simp only [readChunk, e1]

/-- A complete chunk whose declared length is 0 is a read error: `Read` on the empty
payload buffer returns 0. -/
theorem readChunk_zero_length (f : File) (pre rest : List Byte) (c : pngChunk)
    (hd : f.data = pre ++ (encodeChunk c ++ rest)) (hp : f.pos = pre.length)
    (hw : c.WellFormed) (h0 : c.Length = 0) : (readChunk f).1 = none := by
  obtain ⟨hty, hdat, hlen, hcrc⟩ := hw
  obtain ⟨data, pos⟩ := f
  simp only at hd hp
  subst hp
  have e1 := binaryRead_eq ⟨data, pre.length⟩ pre (putUint32 c.Length)
    (c.Typ ++ (c.Data ++ (putUint32 c.CRC ++ rest))) 4
    (by rw [hd]; simp [encodeChunk, List.append_assoc]) rfl rfl
  have e2 := binaryRead_eq ⟨data, pre.length + 4⟩ (pre ++ putUint32 c.Length) c.Typ
    (c.Data ++ (putUint32 c.CRC ++ rest)) 4
    (by simp [hd, encodeChunk, List.append_assoc])
    (by simp [putUint32_length]) hty
  have hb : be32 (putUint32 0) = 0 := by decide
  simp only [readChunk, e1, e2, h0, hb]
  simp [File.read]

/-! ## Chunks with a valid CRC cause no write -/

theorem CRCIsValid_offset (c : pngChunk) (o : Int) :
    ({ c with Offset := o } : pngChunk).CRCIsValid = c.CRCIsValid := rfl

theorem correctionLoop_fold_valid (wfail : Nat → Bool) (chunks : List pngChunk) :
    ∀ (st : LoopState), (∀ c ∈ chunks, c.CRCIsValid = true) →
      chunks.foldl (correctChunk wfail) st = st := by
  induction chunks with
  | nil => intro st _; rfl
  | cons c cs ih =>
    intro st h
    have hc : c.CRCIsValid = true := h c (List.mem_cons_self _ _)
    have hstep : correctChunk wfail st c = st := by simp [correctChunk, hc]
    rw [List.foldl_cons, hstep]
    exact ih st (fun x hx => h x (List.mem_cons_of_mem _ hx))

/-- At the start of a run of encoded chunks with payloads no longer than one `Read`
transfers, the decoder either fails or returns the first chunk of the run and stands at
the start of the rest. -/
theorem readChunk_cases (f : File) (pre : List Byte) (cs : List pngChunk)
    (hd : f.data = pre ++ encodeChunks cs) (hp : f.pos = pre.length)
    (hw : ∀ c ∈ cs, c.WellFormed ∧ c.Length ≤ maxRW) :
    (readChunk f).1 = none ∨ ∃ c cs', cs = c :: cs' ∧ c.Length ≠ 0 ∧
      readChunk f = (some { c with Offset := (pre.length : Int) },
        { f with pos := pre.length + (12 + c.Length) }) := by
  cases cs with
  | nil =>
    exact Or.inl (readChunk_eof f (by rw [hd, hp]; simp [encodeChunks]))
  | cons c cs' =>
    have hc := hw c (List.mem_cons_self _ _)
    have hd' : f.data = pre ++ (encodeChunk c ++ encodeChunks cs') := by
      rw [hd]; rfl
    by_cases h0 : c.Length = 0
    · exact Or.inl (readChunk_zero_length f pre _ c hd' hp hc.1 h0)
    · exact Or.inr ⟨c, cs', rfl, h0, readChunk_encoded f pre _ c hd' hp hc.1 h0 hc.2⟩

/-- On a run of encoded chunks with valid CRCs and payloads no longer than one `Read`
transfers, the loop decodes only valid chunks. -/
theorem readLoop_valid (fuel : Nat) : ∀ (f : File) (pre : List Byte) (cs : List pngChunk)
    (last : pngChunk), f.data = pre ++ encodeChunks cs → f.pos = pre.length →
    (∀ c ∈ cs, (c.WellFormed ∧ c.Length ≤ maxRW) ∧ c.CRCIsValid = true) →
    ∀ x ∈ (readLoop fuel f last).1, x.CRCIsValid = true := by
  induction fuel with
  | zero => intro f pre cs last _ _ _ x hx; simp [readLoop] at hx
  | succ n ih =>
    intro f pre cs last hd hp hcs x hx
    unfold readLoop at hx
    split at hx
    · simp at hx
    · rcases readChunk_cases f pre cs hd hp (fun c hc => (hcs c hc).1) with he | ⟨c, cs', rfl, _, hr⟩
      · split at hx
        · simp at hx
        · next chunk f1 h => rw [h] at he; simp at he
      · have hc := hcs c (List.mem_cons_self _ _)
        rw [hr] at hx
        simp only [List.mem_cons] at hx
        rcases hx with hx | hx
        · rw [hx, CRCIsValid_offset]; exact hc.2
        · refine ih _ (pre ++ encodeChunk c) cs' _ ?_ ?_ ?_ x hx
          · simp [hd, encodeChunks, List.append_assoc]
          · simp [encodeChunk_length c hc.1.1.1 hc.1.1.2.1]
          · exact fun y hy => hcs y (List.mem_cons_of_mem _ hy)

theorem seek_start (f : File) : (f.seek chunkStartOffset).2 = { f with pos := 8 } := by
  simp [File.seek, chunkStartOffset]

theorem readChunks_valid (f : File) (hdr : List Byte) (cs : List pngChunk)
    (hd : f.data = hdr ++ encodeChunks cs) (hh : hdr.length = 8)
    (hcs : ∀ c ∈ cs, (c.WellFormed ∧ c.Length ≤ maxRW) ∧ c.CRCIsValid = true) :
    ∀ x ∈ (readChunks f).1, x.CRCIsValid = true := by
  intro x hx
  unfold readChunks at hx
  rw [seek_start] at hx
  simp only at hx
  rcases readChunk_cases { f with pos := 8 } hdr cs hd (by simp [hh])
    (fun c hc => (hcs c hc).1) with he | ⟨c, cs', rfl, _, hr⟩
  · split at hx
    · simp at hx
    · next chunk f1 h => rw [h] at he; simp at he
  · have hc := hcs c (List.mem_cons_self _ _)
    rw [hr] at hx
    simp only [List.mem_cons] at hx
    rcases hx with hx | hx
    · rw [hx, CRCIsValid_offset]; exact hc.2
    · refine readLoop_valid _ _ (hdr ++ encodeChunk c) cs' _ ?_ ?_ ?_ x hx
      · simp [hd, encodeChunks, List.append_assoc]
      · simp [encodeChunk_length c hc.1.1.1 hc.1.1.2.1]
      · exact fun y hy => hcs y (List.mem_cons_of_mem _ hy)

/-- Outcome of the walk function when every decoded chunk has a valid CRC. -/
theorem walkFile_all_valid (wfail : Nat → Bool) (file : File)
    (h : ∀ x ∈ (readChunks (isPng file).2).1, x.CRCIsValid = true) :
    (walkFile wfail file).corrected = false ∧ (walkFile wfail file).writes = [] ∧
      (walkFile wfail file).file.data = file.data := by
  unfold walkFile
  by_cases hg : (isPng file).1 = false
  · rw [if_pos hg]
    exact ⟨rfl, rfl, isPng_data file⟩
  · rw [if_neg hg]
    simp only [correctionLoop, correctionLoop_fold_valid wfail _ _ h]
    exact ⟨trivial, trivial, by rw [readChunks_data, isPng_data]⟩

/-- Round-trip for payloads that one `Read` transfers whole: a well-formed container
(8-byte header, then chunks `[4-byte length][4-byte type][payload][4-byte CRC]`) in which
every declared length is at most `maxRW` and every stored CRC is the CRC-32 of type and
payload is reported as not corrected and keeps every byte; `readChunks` followed by the
correction loop makes no seek and no write on it. -/
theorem roundtrip_of_le_maxRW (data hdr : List Byte) (cs : List pngChunk)
    (hlayout : data = hdr ++ encodeChunks cs) (hheader : hdr.length = 8)
    (hchunks : ∀ c ∈ cs, c.WellFormed) (hcap : ∀ c ∈ cs, c.Length ≤ maxRW)
    (hcrc : ∀ c ∈ cs, c.CRC = crc32Checksum (c.Typ ++ c.Data)) :
    process data = (false, data) ∧
      ∀ (wfail : Nat → Bool) (f : File), f.data = data →
        correctionLoop wfail (readChunks f).2 (readChunks f).1 =
          { corrected := false, file := (readChunks f).2, writes := [] } ∧
        (readChunks f).2.data = data := by
  have hv : ∀ c ∈ cs, (c.WellFormed ∧ c.Length ≤ maxRW) ∧ c.CRCIsValid = true :=
    fun c hcm => ⟨⟨hchunks c hcm, hcap c hcm⟩, by
      simp [pngChunk.CRCIsValid, pngChunk.CalculateCRC, pngChunk.Bytes, hcrc c hcm]⟩
  refine ⟨?_, fun wfail f hf => ⟨?_, ?_⟩⟩
  · have h := walkFile_all_valid noFail (openFile data)
      (readChunks_valid _ hdr cs (by rw [isPng_data]; exact hlayout) hheader hv)
    simp only [process, h.1, h.2.2]
    rfl
  · exact correctionLoop_fold_valid wfail _ _
      (readChunks_valid f hdr cs (by rw [hf]; exact hlayout) hheader hv)
  · rw [readChunks_data, hf]

set_option maxRecDepth 100000 in
/-- C2 (single-field repair), at a failing input: in the container `fileFlippedIEND`
exactly one chunk, the empty IEND chunk, has a stored CRC (0xAE426083) that differs
from its CRC-32 (0xAE426082); processing reports `corrected = false` and leaves the
wrong CRC in the file. -/
theorem single_repair_misses_empty_chunk :
    goodIDAT.CRCIsValid = true ∧ flippedIEND.CRCIsValid = false ∧
      flippedIEND.CalculateCRC = 0xae426082 ∧
      (readChunks (openFile fileFlippedIEND)).1 = [goodIDAT] ∧
      process fileFlippedIEND = (false, fileFlippedIEND) := by
  decide

/-- C4 (offset precision), at a failing input: for the chunk with `Offset = 8` and
`Length = 0xFFFFFFF8` the sum `8 + Length` wraps to 0 in 32 bits and `CRCOffset` is 8,
not `Offset + 8 + Length = 4294967304`. -/
theorem CRCOffset_wraps_uint32 :
    wrapChunk.CRCOffset = 8 ∧ wrapChunk.Offset + 8 + wrapChunk.Length = 4294967304 := by
  decide

set_option maxRecDepth 100000 in
/-- C6 (termination at the terminal marker), at a failing input: on a stream of a valid
IDAT chunk, the standard empty IEND chunk and two trailing bytes, `readChunks` returns
the IDAT chunk only; the IEND chunk is not in the result. -/
theorem readChunks_drops_empty_IEND :
    (readChunks (openFile fileTrailing)).1 = [goodIDAT] ∧
      (readChunks (openFile (pngHeader ++ encodeChunks [goodIDAT, goodIEND]))).1 = [goodIDAT] := by
  decide

/-- C7 (declared length zero), the failure in general: wherever a complete chunk with
`Length = 0` stands at the decoder's position, the chunk read is a read error and the
chunk is not returned; at the start of the chunk area `readChunks` returns nothing. -/
theorem zero_length_chunk_is_read_error (pre rest ty : List Byte) (crc : Nat)
    (hty : ty.length = 4) (hcrc : crc < 2 ^ 32) :
    (readChunk (File.mk (pre ++ (putUint32 0 ++ (ty ++ (putUint32 crc ++ rest))))
        pre.length)).1 = none ∧
      (pre.length = 8 →
        (readChunks (openFile (pre ++ (putUint32 0 ++ (ty ++ (putUint32 crc ++ rest)))))).1
          = []) := by
  have k : (readChunk (File.mk (pre ++ (putUint32 0 ++ (ty ++ (putUint32 crc ++ rest))))
      pre.length)).1 = none :=
    readChunk_zero_length _ pre rest
      { Offset := 0, Length := 0, Typ := ty, Data := [], CRC := crc }
      (by simp [encodeChunk]) rfl ⟨hty, rfl, by norm_num, hcrc⟩ rfl
  refine ⟨k, fun h8 => ?_⟩
  unfold readChunks
  rw [seek_start]
  simp only [openFile]
  rw [h8] at k
  split
  · rfl
  · next chunk f1 h => rw [h] at k; simp at k

/-- Witness of `zero_length_chunk_is_read_error`: the standard IEND chunk right after
the PNG signature. -/
theorem zero_length_chunk_is_read_error_witness :
    (readChunks (openFile (pngHeader ++
      (putUint32 0 ++ (endChunk ++ (putUint32 0xae426082 ++ [])))))).1 = [] :=
  (zero_length_chunk_is_read_error pngHeader [] endChunk 0xae426082 rfl (by norm_num)).2 rfl

/-- C9 (non-candidate skip): when `isPng` returns false the walk function decodes no
chunk, makes no seek or write, reports nothing and leaves the content as it was. -/
theorem gate_false_skips_file (wfail : Nat → Bool) (f : File) (h : (isPng f).1 = false) :
    (walkFile wfail f).decoded = [] ∧ (walkFile wfail f).writes = [] ∧
      (walkFile wfail f).corrected = false ∧ (walkFile wfail f).file.data = f.data := by
  unfold walkFile
  rw [if_pos h]
  exact ⟨rfl, rfl, rfl, isPng_data f⟩

/-- Witness of `gate_false_skips_file`: a GIF-signature file holding a chunk with a
wrong CRC. -/
theorem gate_false_skips_file_witness :
    (isPng (openFile fileNotPng)).1 = false ∧
      (walkFile noFail (openFile fileNotPng)).file.data = fileNotPng :=
  ⟨by decide, (gate_false_skips_file noFail (openFile fileNotPng) (by decide)).2.2.2⟩

/-! ## The correction loop -/

theorem correctionLoop_fold_flag (wfail : Nat → Bool) (chunks : List pngChunk) :
    ∀ st : LoopState,
      (chunks.foldl (correctChunk wfail) st).corrected =
          (st.corrected || chunks.any (fun c => !c.CRCIsValid)) ∧
        (chunks.foldl (correctChunk wfail) st).writes =
          st.writes ++ (chunks.filter (fun c => !c.CRCIsValid)).map
            (fun c => (c.CRCOffset, c.CalculateCRC)) := by
  induction chunks with
  | nil => intro st; simp
  | cons c cs ih =>
    intro st
    rw [List.foldl_cons]
    obtain ⟨h1, h2⟩ := ih (correctChunk wfail st c)
    rw [h1, h2]
    by_cases hv : c.CRCIsValid = true
    · simp [correctChunk, hv]
    · simp only [Bool.not_eq_true] at hv
      simp [correctChunk, hv]

/-- C10 (write failure), as the code has it: a failed seek or write is not looked at.
Whatever fails, the walk function returns no error, decodes the same chunks, reports
`corrected` exactly when some decoded chunk has an invalid CRC, and goes through the
seek and the write for every such chunk, the ones after a failure included. -/
theorem write_failure_is_ignored (wfail : Nat → Bool) (file : File) :
    (walkFile wfail file).err = none ∧
      (walkFile wfail file).decoded = (walkFile noFail file).decoded ∧
      (walkFile wfail file).corrected =
        (walkFile wfail file).decoded.any (fun c => !c.CRCIsValid) ∧
      (walkFile wfail file).writes =
        ((walkFile wfail file).decoded.filter (fun c => !c.CRCIsValid)).map
          (fun c => (c.CRCOffset, c.CalculateCRC)) := by
  unfold walkFile
  by_cases hg : (isPng file).1 = false
  · simp only [if_pos hg]
    simp
  · simp only [if_neg hg, correctionLoop]
    obtain ⟨h1, h2⟩ := correctionLoop_fold_flag wfail (readChunks (isPng file).2).1
      { corrected := false, file := (readChunks (isPng file).2).2, writes := [] }
    refine ⟨trivial, trivial, ?_, ?_⟩
    · rw [h1]; simp
    · rw [h2]; simp

set_option maxRecDepth 100000 in
/-- C10 (write failure is fatal) fails: on `fileTwoBad` with a device whose write at
the first chunk's CRC field fails, that write returns an error, yet the walk function
returns no error, reports `corrected = true`, leaves the first CRC wrong and goes on
to rewrite the second chunk's CRC. -/
theorem write_failure_not_fatal :
    (File.write failAt17 (File.mk fileTwoBad 17) (putUint32 badIDAT.CalculateCRC)).1
        = some IOError.eio ∧
      (walkFile failAt17 (openFile fileTwoBad)).err = none ∧
      (walkFile failAt17 (openFile fileTwoBad)).corrected = true ∧
      (walkFile failAt17 (openFile fileTwoBad)).writes = [(17, 0xb65ce84b), (31, 0x1b368ee1)] ∧
      (walkFile failAt17 (openFile fileTwoBad)).file.data =
        pngHeader ++ encodeChunks [badIDAT, { badTEXT with CRC := 0x1b368ee1 }] := by
  decide

/-! ## Truncated payload -/

/-- A chunk whose length and type are there but whose payload, declared no longer than
one `Read` transfers, is cut short by the end of the content is a read error. -/
theorem readChunk_truncated (f : File) (pre ty part : List Byte) (len : Nat)
    (hd : f.data = pre ++ (putUint32 len ++ (ty ++ part))) (hp : f.pos = pre.length)
    (hty : ty.length = 4) (hlen : len < 2 ^ 32) (hpart : part.length < len)
    (hcap : len ≤ maxRW) :
    (readChunk f).1 = none := by
  obtain ⟨data, pos⟩ := f
  simp only at hd hp
  subst hp
  have e1 := binaryRead_eq ⟨data, pre.length⟩ pre (putUint32 len) (ty ++ part) 4 hd rfl rfl
  have e2 := binaryRead_eq ⟨data, pre.length + 4⟩ (pre ++ putUint32 len) ty part 4
    (by simp [hd, List.append_assoc]) (by simp [putUint32_length]) hty
  have hdrop : data.drop (pre.length + 4 + 4) = part := by
    have : data = (pre ++ putUint32 len ++ ty) ++ part := by simp [hd, List.append_assoc]
    rw [this]
    exact List.drop_left' (by simp [putUint32_length, hty])
  have htake : part.take len = part := List.take_of_length_le (by omega)
  have hl0 : len ≠ 0 := by omega
  simp only [readChunk, e1, e2, be32_putUint32 _ hlen, File.read, Nat.min_eq_left hcap]
  by_cases hpe : part.length = 0
  · simp [File.read, hdrop, htake, hl0, hpe]
  · have hdl : data.length = pre.length + 4 + 4 + part.length := by
      simp [hd, putUint32_length, hty]; omega
    have hdrop2 : data.drop (pre.length + 4 + 4 + part.length) = [] :=
      List.drop_of_length_le (by omega)
    simp [File.read, File.binaryRead, hdrop, htake, hl0, hpe, hdrop2]

/-! ## Writing the CRC field -/

/-- Writing over a field of the same width replaces that field and nothing else. -/
theorem overwrite_eq (pre old post new : List Byte) (h : old.length = new.length) :
    overwrite (pre ++ (old ++ post)) pre.length new = pre ++ (new ++ post) := by
  have h1 : (pre ++ (old ++ post)).take pre.length = pre := List.take_left _ _
  have h2 : pre.length - (pre ++ (old ++ post)).length = 0 := by simp
  have h3 : (pre ++ (old ++ post)).drop (pre.length + new.length) = post := by
    have : pre ++ (old ++ post) = (pre ++ old) ++ post := by simp
    rw [this]
    exact List.drop_left' (by simp [h])
  simp only [overwrite, h1, h2, h3, List.replicate_zero, List.append_nil, List.append_assoc]

/-- Without wrap-around `CRCOffset` is `Offset + 8 + Length`. -/
theorem CRCOffset_exact (c : pngChunk) (h0 : 0 ≤ c.Offset) (h1 : c.Offset < 2 ^ 62)
    (hl : c.Length < 2 ^ 32 - 8) : c.CRCOffset = c.Offset + 8 + c.Length := by
  simp only [pngChunk.CRCOffset, wrapInt64]
  omega

/-- One pass of the loop body on a healthy device, in terms of the content. -/
theorem correctChunk_data (st : LoopState) (c : pngChunk) (hoff : 0 ≤ c.CRCOffset) :
    (correctChunk noFail st c).file.data =
      if c.CRCIsValid = true then st.file.data
      else overwrite st.file.data c.CRCOffset.toNat (putUint32 c.CalculateCRC) := by
  by_cases hv : c.CRCIsValid = true
  · simp [correctChunk, hv]
  · simp only [Bool.not_eq_true] at hv
    have hs : ¬ c.CRCOffset < 0 := by omega
    simp [correctChunk, hv, File.seek, hs, File.write, noFail]

/-- The loop body on a chunk that lies in the content, CRC field included. -/
theorem correctChunk_encoded (st : LoopState) (pre post : List Byte) (c : pngChunk)
    (off : Int) (hd : st.file.data = pre ++ (encodeChunk c ++ post)) (hw : c.WellFormed)
    (hpre : pre.length < 2 ^ 62) (hl : c.Length < 2 ^ 32 - 8) (ho : off = (pre.length : Int)) :
    (correctChunk noFail st { c with Offset := off }).file.data =
      pre ++ (encodeChunk { c with CRC := c.CalculateCRC } ++ post) := by
  obtain ⟨hty, hdat, _, _⟩ := hw
  subst ho
  have hoff : ({ c with Offset := (pre.length : Int) } : pngChunk).CRCOffset
      = ((pre.length + 8 + c.Length : Nat) : Int) := by
    rw [CRCOffset_exact { c with Offset := (pre.length : Int) } (by simp)
      (by simp only; omega) hl]
    simp
  rw [correctChunk_data _ _ (by rw [hoff]; omega), hoff, CRCIsValid_offset]
  by_cases hv : c.CRCIsValid = true
  · have he : c.CRC = c.CalculateCRC := by simpa [pngChunk.CRCIsValid] using hv
    rw [if_pos hv, hd, ← he]
  · rw [if_neg hv, hd]
    have hsplit : pre ++ (encodeChunk c ++ post)
        = (pre ++ (putUint32 c.Length ++ (c.Typ ++ c.Data))) ++ (putUint32 c.CRC ++ post) := by
      simp [encodeChunk, List.append_assoc]
    have hlen : (pre ++ (putUint32 c.Length ++ (c.Typ ++ c.Data))).length
        = pre.length + 8 + c.Length := by
      simp [putUint32_length, hty, hdat]; omega
    rw [hsplit, Int.toNat_ofNat, ← hlen,
      overwrite_eq _ (putUint32 c.CRC) post (putUint32 _) (by rfl)]
    simp [encodeChunk, List.append_assoc, pngChunk.CalculateCRC, pngChunk.Bytes]

set_option maxRecDepth 100000 in
/-- C8 (truncation resilience) fails as stated: in `fileIENDFirst` the first two chunks
are complete and the stream ends inside the payload of the third, but the first chunk
has type IEND, so `readChunks` stops there and returns one chunk, not two. -/
theorem truncation_after_IEND_first :
    (readChunks (openFile fileIENDFirst)).1 = [iendWithData] ∧
      (readChunks (openFile fileIENDFirst)).1.length = 1 ∧
      iendWithData.WellFormed ∧ iendWithData.Length ≠ 0 ∧
      goodIDAT.WellFormed ∧ goodIDAT.Length ≠ 0 := by
  decide

/-- C8 (truncation resilience), amended: when the first two chunks are complete with
non-empty payloads, the first is not of type IEND, the stream ends inside the payload
of the third chunk, and the three declared lengths are at most `maxRW = 2^30` (what one
`Read` transfers), `readChunks` returns exactly the first two chunks; the correction
loop reports `corrected` exactly when one of the two has a wrong CRC and leaves both
CRC fields holding the CRC-32 of type and payload, every other byte as before. -/
theorem truncated_third_chunk (f : File) (hdr : List Byte) (c1 c2 : pngChunk) (len3 : Nat)
    (ty3 part : List Byte)
    (hd : f.data = hdr ++ (encodeChunk c1 ++ (encodeChunk c2 ++
      (putUint32 len3 ++ (ty3 ++ part)))))
    (hh : hdr.length = 8) (w1 : c1.WellFormed) (w2 : c2.WellFormed)
    (hty3 : ty3.length = 4) (hpart : part.length < len3)
    (n1 : c1.Length ≠ 0) (n2 : c2.Length ≠ 0) (ht : c1.Typ ≠ endChunk)
    (m1 : c1.Length ≤ maxRW) (m2 : c2.Length ≤ maxRW) (m3 : len3 ≤ maxRW) :
    (readChunks f).1 =
        [{ c1 with Offset := 8 }, { c2 with Offset := 20 + (c1.Length : Int) }] ∧
      (correctionLoop noFail (readChunks f).2 (readChunks f).1).corrected =
        (!c1.CRCIsValid || !c2.CRCIsValid) ∧
      (correctionLoop noFail (readChunks f).2 (readChunks f).1).file.data =
        hdr ++ (encodeChunk { c1 with CRC := c1.CalculateCRC } ++
          (encodeChunk { c2 with CRC := c2.CalculateCRC } ++
            (putUint32 len3 ++ (ty3 ++ part)))) := by
  have hmax := maxRW_lt
  have b1 : c1.Length < 2 ^ 32 - 8 := by omega
  have b2 : c2.Length < 2 ^ 32 - 8 := by omega
  have hl3 : len3 < 2 ^ 32 := by omega
  have hlen1 := encodeChunk_length c1 w1.1 w1.2.1
  have hlen2 := encodeChunk_length c2 w2.1 w2.2.1
  have r1 := readChunk_encoded ⟨f.data, 8⟩ hdr
    (encodeChunk c2 ++ (putUint32 len3 ++ (ty3 ++ part))) c1 hd (by simp [hh]) w1 n1 m1
  have r2 := readChunk_encoded ⟨f.data, hdr.length + (12 + c1.Length)⟩ (hdr ++ encodeChunk c1)
    (putUint32 len3 ++ (ty3 ++ part)) c2 (by simp [hd]) (by simp [hlen1]) w2 n2 m2
  have r3 := readChunk_truncated
    ⟨f.data, (hdr ++ encodeChunk c1).length + (12 + c2.Length)⟩
    (hdr ++ encodeChunk c1 ++ encodeChunk c2) ty3 part len3 (by simp [hd])
    (by simp [hlen1, hlen2]; omega) hty3 hl3 hpart m3
  have hchunks : (readChunks f).1 =
      [{ c1 with Offset := 8 }, { c2 with Offset := 20 + (c1.Length : Int) }] := by
    obtain ⟨n, hn⟩ : ∃ n, f.data.length = n + 2 :=
      ⟨f.data.length - 2, by rw [hd]; simp [hlen1, hlen2]; omega⟩
    unfold readChunks
    rw [seek_start, hn]
    simp only [r1, readLoop, ht, if_false, r2]
    by_cases he : c2.Typ = endChunk
    · simp [he, hh, hlen1]
      omega
    · simp only [he, if_false]
      have r3' : (readChunk ⟨f.data, (hdr ++ encodeChunk c1).length + (12 + c2.Length)⟩).1
          = none := r3
      split
      · simp [hh, hlen1]
        omega
      · next chunk f1 h => rw [h] at r3'; simp at r3'
  refine ⟨hchunks, ?_, ?_⟩
  · rw [hchunks]
    have h := (correctionLoop_fold_flag noFail
      [{ c1 with Offset := 8 }, { c2 with Offset := 20 + (c1.Length : Int) }]
      { corrected := false, file := (readChunks f).2, writes := [] }).1
    simp only [correctionLoop, h, List.any, CRCIsValid_offset]
    simp
  · rw [hchunks]
    simp only [correctionLoop, List.foldl]
    have s1 := correctChunk_encoded
      { corrected := false, file := (readChunks f).2, writes := [] } hdr
      (encodeChunk c2 ++ (putUint32 len3 ++ (ty3 ++ part))) c1 8
      (by simp only [readChunks_data]; exact hd) w1 (by rw [hh]; norm_num) b1 (by simp [hh])
    have hlen1' := encodeChunk_length { c1 with CRC := c1.CalculateCRC } w1.1 w1.2.1
    have s2 := correctChunk_encoded
      (correctChunk noFail { corrected := false, file := (readChunks f).2, writes := [] }
        { c1 with Offset := 8 })
      (hdr ++ encodeChunk { c1 with CRC := c1.CalculateCRC })
      (putUint32 len3 ++ (ty3 ++ part)) c2 (20 + (c1.Length : Int))
      (by rw [s1]; simp) w2
      (by simp only [List.length_append, hh, hlen1']; omega) b2
      (by simp only [List.length_append, hh, hlen1']; omega)
    rw [s2]
    simp

/-- Witness of `truncated_third_chunk`: `fileTruncated`, whose two complete chunks both
have a wrong CRC. -/
theorem truncated_third_chunk_witness :
    (readChunks (openFile fileTruncated)).1 =
        [{ badIDAT with Offset := 8 }, { badTEXT with Offset := 20 + (badIDAT.Length : Int) }] ∧
      (correctionLoop noFail (readChunks (openFile fileTruncated)).2
          (readChunks (openFile fileTruncated)).1).corrected =
        (!badIDAT.CRCIsValid || !badTEXT.CRCIsValid) ∧
      (correctionLoop noFail (readChunks (openFile fileTruncated)).2
          (readChunks (openFile fileTruncated)).1).file.data =
        pngHeader ++ (encodeChunk { badIDAT with CRC := badIDAT.CalculateCRC } ++
          (encodeChunk { badTEXT with CRC := badTEXT.CalculateCRC } ++
            (putUint32 5 ++ ([0x49, 0x44, 0x41, 0x54] ++ [1, 2])))) :=
  truncated_third_chunk (openFile fileTruncated) pngHeader badIDAT badTEXT 5
    [0x49, 0x44, 0x41, 0x54] [1, 2] rfl rfl (by decide) (by decide) rfl
    (by decide) (by decide) (by decide) (by decide) (by decide) (by decide) (by decide)

/-! ## Files with a chunk of 4 GiB -/

theorem crcLoop_zeros (n : Nat) : crcLoop crcIEEE 0 (List.replicate n 0) = 0 := by
  induction n with
  | zero => rfl
  | succ n ih =>
    rw [List.replicate_succ, crcLoop, List.foldl_cons]
    have h : crcTable crcIEEE ((0 % 256) ^^^ ((0 : Byte) : Nat)) ^^^ (0 >>> 8) = 0 := by decide
    rw [h]
    exact ih

theorem hugeChunk_crc (len : Nat) : (hugeChunk len).CalculateCRC = 0xffffffff := by
  have h4 : crcLoop crcIEEE (0 ^^^ 0xffffffff) [255, 255, 255, 255] = 0 := by decide
  have happ : crcLoop crcIEEE (0 ^^^ 0xffffffff) ([255, 255, 255, 255] ++ List.replicate len 0)
      = crcLoop crcIEEE (crcLoop crcIEEE (0 ^^^ 0xffffffff) [255, 255, 255, 255])
          (List.replicate len 0) := by
    simp only [crcLoop, List.foldl_append]
  simp only [pngChunk.CalculateCRC, pngChunk.Bytes, hugeChunk, crc32Checksum]
  rw [happ, h4, crcLoop_zeros]
  decide

theorem hugeChunk_wellFormed (len : Nat) (hlen : len < 2 ^ 32) : (hugeChunk len).WellFormed :=
  ⟨rfl, List.length_replicate _ _, hlen, by norm_num [hugeChunk]⟩

theorem zeros_append (m n : Nat) :
    List.replicate m (0 : Byte) ++ List.replicate n 0 = List.replicate (m + n) 0 :=
  (List.replicate_add m n 0).symm

/-- A length field 0 followed by a type is a read error, whatever follows. -/
theorem readChunk_length_zero (f : File) (pre ty rest : List Byte)
    (hd : f.data = pre ++ (putUint32 0 ++ (ty ++ rest))) (hp : f.pos = pre.length)
    (hty : ty.length = 4) : (readChunk f).1 = none := by
  obtain ⟨data, pos⟩ := f
  simp only at hd hp
  subst hp
  have e1 := binaryRead_eq ⟨data, pre.length⟩ pre (putUint32 0) (ty ++ rest) 4 hd rfl rfl
  have e2 := binaryRead_eq ⟨data, pre.length + 4⟩ (pre ++ putUint32 0) ty rest 4
    (by simp [hd, List.append_assoc]) (by simp [putUint32_length]) hty
  have hb : be32 (putUint32 0) = 0 := by decide
  simp only [readChunk, e1, e2, hb]
  simp [File.read]

/-- The loop stops at once after a chunk of type IEND and at a read error. -/
theorem readLoop_stop (fuel : Nat) (f : File) (last : pngChunk)
    (h : last.Typ = endChunk ∨ (readChunk f).1 = none) : (readLoop fuel f last).1 = [] := by
  cases fuel with
  | zero => rfl
  | succ n =>
    unfold readLoop
    split
    · rfl
    · rcases h with h | h
      · contradiction
      · split
        · rfl
        · next chunk f1 hr => rw [hr] at h; simp at h

/-- The result of `readChunks` when the loop stops after the first chunk. -/
theorem readChunks_one (f f1 : File) (c : pngChunk)
    (h1 : readChunk ⟨f.data, 8⟩ = (some c, f1))
    (h2 : c.Typ = endChunk ∨ (readChunk f1).1 = none) : (readChunks f).1 = [c] := by
  unfold readChunks
  rw [seek_start]
  simp only [h1, readLoop_stop _ f1 c h2]

/-- The content of `hugeFile len` when the payload is longer than one `Read` transfers:
what is read as payload, what is read as CRC, and what the next chunk read finds. -/
theorem hugeFile_split (len : Nat) (hcap : maxRW + 8 ≤ len) :
    hugeFile len = pngHeader ++ (putUint32 len ++ ([255, 255, 255, 255] ++
      (List.replicate maxRW 0 ++ ([0, 0, 0, 0] ++
        (putUint32 0 ++ ([0, 0, 0, 0] ++ List.replicate (len - maxRW - 8) 0)))))) := by
  have hz : putUint32 0 = List.replicate 4 0 := by decide
  have h4 : ([0, 0, 0, 0] : List Byte) = List.replicate 4 0 := rfl
  have e : List.replicate len (0 : Byte) ++ List.replicate 4 0 =
      List.replicate maxRW 0 ++ (List.replicate 4 0 ++ (List.replicate 4 0 ++
        (List.replicate 4 0 ++ List.replicate (len - maxRW - 8) 0))) := by
    have hn : len + 4 = maxRW + (4 + (4 + (4 + (len - maxRW - 8)))) := by omega
    rw [zeros_append, zeros_append, zeros_append, zeros_append, zeros_append, hn]
  simp only [hugeFile, encodeChunk, hugeChunk, hz, h4, e]

/-- The decoder returns the one chunk of `hugeFile len`: the one `Read` of the payload
transfers `maxRW` bytes, the rest of `Data` stays zero, the CRC is read from the payload
(zero bytes), and the next chunk read finds a length field 0. -/
theorem readChunks_hugeFile (f : File) (len : Nat) (hd : f.data = hugeFile len)
    (hcap : maxRW + 8 ≤ len) (hlen : len < 2 ^ 32) : (readChunks f).1 = [hugeChunk len] := by
  have hs := hugeFile_split len hcap
  have hpos := maxRW_pos
  have r1 := readChunk_window ⟨f.data, 8⟩ pngHeader [255, 255, 255, 255]
    (List.replicate maxRW 0) [0, 0, 0, 0]
    (putUint32 0 ++ ([0, 0, 0, 0] ++ List.replicate (len - maxRW - 8) 0)) len
    (by rw [hd, hs]) rfl rfl hlen (by omega)
    (by rw [List.length_replicate, Nat.min_eq_right (by omega)]) rfl
  have e : maxRW + (len - maxRW) = len := by omega
  have h8 : (pngHeader.length : Int) = 8 := rfl
  have hb : be32 [0, 0, 0, 0] = 0 := rfl
  rw [List.length_replicate, zeros_append, e, h8, hb] at r1
  refine readChunks_one f _ (hugeChunk len) r1 (Or.inr ?_)
  exact readChunk_length_zero _
    (pngHeader ++ (putUint32 len ++ ([255, 255, 255, 255] ++
      (List.replicate maxRW 0 ++ [0, 0, 0, 0])))) [0, 0, 0, 0]
    (List.replicate (len - maxRW - 8) 0)
    (by simp only [hd, hs, List.append_assoc])
    (by
      simp only [List.length_append, List.length_replicate, putUint32_length]
      simp only [List.length_cons, List.length_nil]
      omega) rfl

/-- A file that starts with the PNG signature passes the gate. -/
theorem isPng_pngHeader (rest : List Byte) : (isPng (openFile (pngHeader ++ rest))).1 = true := by
  have h3 : min 3 maxRW = 3 := by unfold maxRW; norm_num
  simp [isPng, openFile, File.seek, File.read, pngHeader, h3]

/-- Processing `hugeFile len`: the chunk is decoded, its CRC is found wrong, and the 4
bytes FF FF FF FF are written at `8 + (8 + len) mod 2^32`. -/
theorem process_hugeFile (len k : Nat) (hcap : maxRW + 8 ≤ len) (hlen : len < 2 ^ 32)
    (hk : (8 + len) % 2 ^ 32 = k) :
    process (hugeFile len) = (true, overwrite (hugeFile len) (8 + k) [255, 255, 255, 255]) := by
  have hg : ¬ (isPng (openFile (hugeFile len))).1 = false := by
    rw [hugeFile, isPng_pngHeader]; simp
  have hr := readChunks_hugeFile (isPng (openFile (hugeFile len))).2 len
    (by rw [isPng_data]; rfl) hcap hlen
  have hcrc := hugeChunk_crc len
  have hv : (hugeChunk len).CRCIsValid = false := by
    simp only [pngChunk.CRCIsValid, hcrc]
    rfl
  have hoff : (hugeChunk len).CRCOffset = ((8 + k : Nat) : Int) := by
    simp only [pngChunk.CRCOffset, wrapInt64, hugeChunk, hk]
    have : k < 2 ^ 32 := by rw [← hk]; exact Nat.mod_lt _ (by norm_num)
    omega
  have hput : putUint32 0xffffffff = [255, 255, 255, 255] := by decide
  have hdata := correctChunk_data
    { corrected := false, file := (readChunks (isPng (openFile (hugeFile len))).2).2,
      writes := [] } (hugeChunk len) (by rw [hoff]; omega)
  rw [hoff, hv, hcrc, hput] at hdata
  simp only [Bool.false_eq_true, if_false, readChunks_data, isPng_data, Int.toNat_ofNat] at hdata
  have hflag : (correctChunk noFail
      { corrected := false, file := (readChunks (isPng (openFile (hugeFile len))).2).2,
        writes := [] } (hugeChunk len)).corrected = true := by
    simp [correctChunk, hv]
  simp only [process, walkFile, if_neg hg, hr, correctionLoop, List.foldl, hflag, hdata]
  rfl

/-- Writing FF FF FF FF at offset 12 of `hugeFile len` puts the type bytes where they
already are. -/
theorem overwrite_hugeFile_type (len : Nat) :
    overwrite (hugeFile len) 12 [255, 255, 255, 255] = hugeFile len := by
  have h := overwrite_eq (pngHeader ++ putUint32 len) [255, 255, 255, 255]
    (List.replicate len 0 ++ putUint32 0) [255, 255, 255, 255] rfl
  have e : hugeFile len = pngHeader ++ putUint32 len ++
      ([255, 255, 255, 255] ++ (List.replicate len 0 ++ putUint32 0)) := by
    simp only [hugeFile, encodeChunk, hugeChunk, List.append_assoc]
  rw [e]
  exact h

/-- Writing FF FF FF FF at offset 8 of `hugeFile len` replaces the length field. -/
theorem overwrite_hugeFile_length (len : Nat) :
    overwrite (hugeFile len) 8 [255, 255, 255, 255] =
      pngHeader ++ ([255, 255, 255, 255] ++
        ([255, 255, 255, 255] ++ (List.replicate len 0 ++ [0, 0, 0, 0]))) := by
  have h := overwrite_eq pngHeader (putUint32 len)
    ([255, 255, 255, 255] ++ (List.replicate len 0 ++ [0, 0, 0, 0])) [255, 255, 255, 255] rfl
  have hz : putUint32 0 = [0, 0, 0, 0] := by decide
  have e : hugeFile len = pngHeader ++ (putUint32 len ++
      ([255, 255, 255, 255] ++ (List.replicate len 0 ++ [0, 0, 0, 0]))) := by
    simp only [hugeFile, encodeChunk, hugeChunk, hz]
  have h8 : pngHeader.length = 8 := rfl
  rw [e, ← h8]
  exact h

/-- C3 (idempotence), at a failing input: `hugeFile 0xFFFFFFFC` holds one chunk of
declared length 0xFFFFFFFC whose stored CRC (0) is wrong. The first run reports
`corrected = true` but writes the CRC at offset 12, over the type field, so the
stored CRC stays wrong and the second run reports `corrected = true` again. -/
theorem second_run_corrects_again :
    (hugeChunk 0xfffffffc).CRCOffset = 12 ∧
      (process (hugeFile 0xfffffffc)).1 = true ∧
      (process (process (hugeFile 0xfffffffc)).2).1 = true := by
  have h : process (hugeFile 0xfffffffc) = (true, hugeFile 0xfffffffc) := by
    rw [process_hugeFile 0xfffffffc 4 (by decide) (by decide) (by decide)]
    exact congrArg (Prod.mk true) (overwrite_hugeFile_type 0xfffffffc)
  refine ⟨by decide, congrArg Prod.fst h, ?_⟩
  rw [h]
  exact congrArg Prod.fst h

/-- C5 (in-place repair), at a failing input: `hugeFile 0xFFFFFFF8` holds one chunk of
declared length 0xFFFFFFF8 whose stored CRC (0) is wrong. `readChunks` returns that
chunk, its `CRCOffset` is 8, and processing turns the chunk's length field
FF FF FF F8 into FF FF FF FF while the stored CRC field keeps its wrong value. -/
theorem huge_chunk_write_hits_length_field :
    (readChunks (openFile (hugeFile 0xfffffff8))).1 = [hugeChunk 0xfffffff8] ∧
      (hugeChunk 0xfffffff8).CRCOffset = 8 ∧
      hugeFile 0xfffffff8 = pngHeader ++ ([255, 255, 255, 0xf8] ++
        ([255, 255, 255, 255] ++ (List.replicate 0xfffffff8 0 ++ [0, 0, 0, 0]))) ∧
      process (hugeFile 0xfffffff8) = (true, pngHeader ++ ([255, 255, 255, 255] ++
        ([255, 255, 255, 255] ++ (List.replicate 0xfffffff8 0 ++ [0, 0, 0, 0])))) := by
  refine ⟨readChunks_hugeFile _ _ rfl (by decide) (by decide), by decide, ?_, ?_⟩
  · have hp : putUint32 0xfffffff8 = [255, 255, 255, 0xf8] := by decide
    have hz : putUint32 0 = [0, 0, 0, 0] := by decide
    simp only [hugeFile, encodeChunk, hugeChunk, hp, hz]
  · rw [process_hugeFile 0xfffffff8 0 (by decide) (by decide) (by decide)]
    exact congrArg (Prod.mk true) (overwrite_hugeFile_length 0xfffffff8)

/-! ## Fuel -/

theorem window_length (f : File) (n : Nat) :
    ((f.data.drop f.pos).take n).length ≤ n ∧
      ((f.data.drop f.pos).take n).length ≤ f.data.length - f.pos ∧
      (((f.data.drop f.pos).take n).length = n ∨
        ((f.data.drop f.pos).take n).length = f.data.length - f.pos) := by
  rw [List.length_take, List.length_drop, Nat.min_def]
  split <;> omega

theorem binaryRead_ok (f : File) (bs : List Byte) (h : (f.binaryRead 4).1 = Except.ok bs) :
    (f.binaryRead 4).2 = { f with pos := f.pos + 4 } ∧ f.pos + 4 ≤ f.data.length := by
  have hl := window_length f 4
  unfold File.binaryRead at h ⊢
  simp only at h ⊢
  split at h
  · next hn =>
    rw [if_pos hn, hn]
    exact ⟨rfl, by omega⟩
  · split at h <;> simp at h

theorem binaryRead_error (f : File) (e : IOError) (h : (f.binaryRead 4).1 = Except.error e) :
    (f.binaryRead 4).2.data = f.data ∧ f.data.length ≤ (f.binaryRead 4).2.pos := by
  have hl := window_length f 4
  refine ⟨binaryRead_data f 4, ?_⟩
  unfold File.binaryRead at h ⊢
  simp only at h ⊢
  split at h
  · simp at h
  · next hn =>
    rw [if_neg hn]
    split <;> (simp only; omega)

theorem read_pos (f g : File) (n : Nat) (bs : List Byte) (e : Option IOError)
    (h : f.read n = ((bs, e), g)) :
    g.data = f.data ∧ g.pos = f.pos + bs.length ∧
      (bs.length = 0 ∨ f.pos + bs.length ≤ f.data.length) := by
  have hl := window_length f (min n maxRW)
  unfold File.read at h
  simp only at h
  split at h
  · simp only [Prod.mk.injEq] at h
    obtain ⟨⟨rfl, _⟩, rfl⟩ := h
    simp
  · split at h
    · simp only [Prod.mk.injEq] at h
      obtain ⟨⟨rfl, _⟩, rfl⟩ := h
      simp
    · simp only [Prod.mk.injEq] at h
      obtain ⟨⟨rfl, _⟩, rfl⟩ := h
      refine ⟨rfl, rfl, ?_⟩
      omega

/-- A chunk that is decoded moves the position forward by at least 13 bytes and not
past the end of the content. -/
theorem readChunk_some_pos (f f1 : File) (c : pngChunk) (h : readChunk f = (some c, f1)) :
    f1.data = f.data ∧ f.pos + 13 ≤ f1.pos ∧ f1.pos ≤ f.data.length := by
  have hdata := readChunk_data f
  rw [h] at hdata
  refine ⟨hdata, ?_⟩
  unfold readChunk at h
  rcases hr1 : f.binaryRead 4 with ⟨x1, g1⟩
  rw [hr1] at h
  simp only at h
  rcases hr2 : g1.binaryRead 4 with ⟨x2, g2⟩
  rw [hr2] at h
  simp only at h
  cases x2 with
  | error e => simp at h
  | ok ty =>
    simp only at h
    have b2 := binaryRead_ok g1 ty (by rw [hr2])
    rw [hr2] at b2
    simp only at b2
    cases x1 with
    | error e =>
      have b1 := binaryRead_error f e (by rw [hr1])
      rw [hr1] at b1
      simp only at b1
      have := congrArg List.length b1.1
      omega
    | ok bs =>
      have b1 := binaryRead_ok f bs (by rw [hr1])
      rw [hr1] at b1
      simp only at b1 h
      rcases hr3 : g2.read (be32 bs) with ⟨⟨p, e⟩, g3⟩
      rw [hr3] at h
      simp only at h
      have b3 := read_pos g2 g3 _ p e hr3
      split at h
      · simp at h
      · next hc =>
        have hp := (not_or.mp hc).1
        rcases hr4 : g3.binaryRead 4 with ⟨x4, g4⟩
        rw [hr4] at h
        simp only at h
        cases x4 with
        | error e => simp at h
        | ok crc =>
          have b4 := binaryRead_ok g3 crc (by rw [hr4])
          rw [hr4] at b4
          simp only [Prod.mk.injEq, Option.some.injEq] at h b4
          obtain ⟨_, rfl⟩ := h
          obtain ⟨e1, l1⟩ := b1
          obtain ⟨e2, l2⟩ := b2
          obtain ⟨e4, l4⟩ := b4
          obtain ⟨d3, p3, l3⟩ := b3
          subst e1 e2 e4
          have := congrArg List.length d3
          simp only at *
          omega

theorem putUint32_be32 (bs : List Byte) (h : bs.length = 4) : putUint32 (be32 bs) = bs := by
  match bs, h with
  | [a, b, c, d], _ =>
    have ha := a.isLt
    have hb := b.isLt
    have hc := c.isLt
    have hd := d.isLt
    simp only [be32, putUint32, List.foldl, Fin.ofNat]
    congr 1
    · apply Fin.ext; simp only; omega
    · congr 1
      · apply Fin.ext; simp only; omega
      · congr 1
        · apply Fin.ext; simp only; omega
        · congr 1
          apply Fin.ext; simp only; omega

theorem be32_lt (bs : List Byte) (h : bs.length = 4) : be32 bs < 2 ^ 32 := by
  match bs, h with
  | [a, b, c, d], _ =>
    have ha := a.isLt
    have hb := b.isLt
    have hc := c.isLt
    have hd := d.isLt
    simp only [be32, List.foldl]
    omega

theorem binaryRead_ok_val (f : File) (bs : List Byte) (h : (f.binaryRead 4).1 = Except.ok bs) :
    bs = (f.data.drop f.pos).take 4 := by
  unfold File.binaryRead at h
  simp only at h
  split at h
  · simp only [Except.ok.injEq] at h; exact h.symm
  · split at h <;> simp at h

theorem read_val (f g : File) (n : Nat) (bs : List Byte) (e : Option IOError)
    (h : f.read n = ((bs, e), g)) (hne : bs.length ≠ 0) :
    bs = (f.data.drop f.pos).take (min n maxRW) := by
  unfold File.read at h
  simp only at h
  split at h
  · simp only [Prod.mk.injEq] at h
    obtain ⟨⟨rfl, _⟩, _⟩ := h
    simp at hne
  · split at h
    · simp only [Prod.mk.injEq] at h
      obtain ⟨⟨rfl, _⟩, _⟩ := h
      simp at hne
    · simp only [Prod.mk.injEq] at h
      obtain ⟨⟨rfl, _⟩, _⟩ := h
      rfl

/-- What `readChunk` returns is given by the closed form, and the position moves past
the twelve bytes of fields and the bytes the one `Read` of the payload transferred. -/
theorem readChunk_some_chunkAt (f f1 : File) (c : pngChunk) (h : readChunk f = (some c, f1)) :
    chunkAt f.data f.pos = some c ∧
      f1 = { f with pos := f.pos + (12 + min c.Length maxRW) } := by
  unfold readChunk at h
  rcases hr1 : f.binaryRead 4 with ⟨x1, g1⟩
  rw [hr1] at h
  simp only at h
  rcases hr2 : g1.binaryRead 4 with ⟨x2, g2⟩
  rw [hr2] at h
  simp only at h
  cases x2 with
  | error e => simp at h
  | ok ty =>
    simp only at h
    have b2 := binaryRead_ok g1 ty (by rw [hr2])
    have v2 := binaryRead_ok_val g1 ty (by rw [hr2])
    rw [hr2] at b2
    simp only at b2
    cases x1 with
    | error e =>
      have b1 := binaryRead_error f e (by rw [hr1])
      rw [hr1] at b1
      simp only at b1
      have := congrArg List.length b1.1
      omega
    | ok bs =>
      have b1 := binaryRead_ok f bs (by rw [hr1])
      have v1 := binaryRead_ok_val f bs (by rw [hr1])
      rw [hr1] at b1
      simp only at b1 h
      rcases hr3 : g2.read (be32 bs) with ⟨⟨p, e⟩, g3⟩
      rw [hr3] at h
      simp only at h
      have b3 := read_pos g2 g3 _ p e hr3
      split at h
      · simp at h
      · next hc =>
        have hp := (not_or.mp hc).1
        have v3 := read_val g2 g3 _ p e hr3 hp
        rcases hr4 : g3.binaryRead 4 with ⟨x4, g4⟩
        rw [hr4] at h
        simp only at h
        cases x4 with
        | error e => simp at h
        | ok crc =>
          have b4 := binaryRead_ok g3 crc (by rw [hr4])
          have v4 := binaryRead_ok_val g3 crc (by rw [hr4])
          rw [hr4] at b4
          simp only [Prod.mk.injEq, Option.some.injEq] at h b4
          obtain ⟨hc', rfl⟩ := h
          obtain ⟨e1, l1⟩ := b1
          obtain ⟨e2, l2⟩ := b2
          obtain ⟨e4, l4⟩ := b4
          obtain ⟨d3, p3, l3⟩ := b3
          subst e1 e2 e4
          have hd3 := congrArg List.length d3
          have hw3 := window_length { f with pos := f.pos + 4 + 4 } (min (be32 bs) maxRW)
          have hm := min_maxRW (be32 bs)
          simp only at hd3 hw3 v2 v3 p3 l2 l3 l4 d3
          rw [← v3] at hw3
          have hpl : p.length = min (be32 bs) maxRW := by omega
          have hg3 : g3 = { f with pos := f.pos + 4 + 4 + min (be32 bs) maxRW } := by
            cases g3
            simp only at d3 p3
            simp only [File.mk.injEq]
            exact ⟨d3, by omega⟩
          subst hg3
          simp only at v4 l4
          subst hc'
          constructor
          · unfold chunkAt
            rw [← v1]
            have hcond : be32 bs ≠ 0 ∧
                f.pos + 12 + min (be32 bs) maxRW ≤ f.data.length := by
              constructor <;> omega
            rw [if_pos hcond]
            simp only [hpl, File.tell, Option.some.injEq, pngChunk.mk.injEq, true_and]
            refine ⟨?_, ?_, ?_⟩
            · rw [v2]
            · rw [v3]
            · rw [v4]
          · simp only [File.mk.injEq, true_and]
            omega

theorem window_append_window (d : List Byte) (p m n : Nat) :
    (d.drop p).take m ++ (d.drop (p + m)).take n = (d.drop p).take (m + n) := by
  rw [List.take_add, List.drop_drop]

theorem window_full (d : List Byte) (q n : Nat) (h : q + n ≤ d.length) :
    ((d.drop q).take n).length = n := by
  rw [List.length_take, List.length_drop]
  omega

/-- The fields of the chunk that the closed form gives at `p`. -/
theorem chunkAt_fields (d : List Byte) (p : Nat) (c : pngChunk) (h : chunkAt d p = some c) :
    c.Offset = (p : Int) ∧ p + 8 + min c.Length maxRW + 4 ≤ d.length ∧
      c.Length = be32 ((d.drop p).take 4) ∧
      c.Typ = (d.drop (p + 4)).take 4 ∧
      c.Data = (d.drop (p + 8)).take (min c.Length maxRW) ++
        List.replicate (c.Length - min c.Length maxRW) 0 ∧
      c.CRC = be32 ((d.drop (p + 8 + min c.Length maxRW)).take 4) := by
  unfold chunkAt at h
  split at h
  · next hcond =>
    simp only [Option.some.injEq] at h
    subst h
    exact ⟨rfl, by simp only; omega, rfl, rfl, rfl, rfl⟩
  · simp at h

/-- A chunk given by the closed form at `p` splits the content into what precedes it,
its length and type fields, the part of the payload one `Read` transfers, the four
bytes read as CRC, and what follows. -/
theorem chunkAt_split (d : List Byte) (p : Nat) (c : pngChunk) (h : chunkAt d p = some c) :
    d = d.take p ++ (putUint32 c.Length ++ (c.Typ ++
        ((d.drop (p + 8)).take (min c.Length maxRW) ++
          (putUint32 c.CRC ++ d.drop (p + (12 + min c.Length maxRW)))))) ∧
      (d.take p).length = p ∧ c.WellFormed ∧ c.Length ≠ 0 ∧ c.Offset = (p : Int) ∧
      p + (12 + min c.Length maxRW) ≤ d.length := by
  obtain ⟨ho, hle, hl, ht, hdat, hcrc⟩ := chunkAt_fields d p c h
  have hm := min_maxRW c.Length
  have h0 : c.Length ≠ 0 := by
    unfold chunkAt at h
    split at h
    · next hcond => rw [hl]; exact hcond.1
    · simp at h
  have w0 := window_full d p 4 (by omega)
  have w1 := window_full d (p + 4) 4 (by omega)
  have w2 := window_full d (p + 8) (min c.Length maxRW) (by omega)
  have w3 := window_full d (p + 8 + min c.Length maxRW) 4 (by omega)
  refine ⟨?_, by rw [List.length_take]; omega, ⟨by rw [ht]; exact w1, ?_, by
    rw [hl]; exact be32_lt _ w0, by rw [hcrc]; exact be32_lt _ w3⟩, h0, ho, by omega⟩
  · rw [hl, putUint32_be32 _ w0, hcrc, putUint32_be32 _ w3, ht, ← hl]
    have e1 := window_append_window d p 4 4
    have e2 := window_append_window d p (4 + 4) (min c.Length maxRW)
    have e3 := window_append_window d p (4 + 4 + min c.Length maxRW) 4
    have a1 : p + (4 + 4) = p + 8 := by omega
    have a2 : p + (4 + 4 + min c.Length maxRW) = p + 8 + min c.Length maxRW := by omega
    rw [a1] at e2
    rw [a2] at e3
    have hassoc : List.take 4 (List.drop p d) ++ (List.take 4 (List.drop (p + 4) d) ++
        (List.take (min c.Length maxRW) (List.drop (p + 8) d) ++
          (List.take 4 (List.drop (p + 8 + min c.Length maxRW) d) ++
            d.drop (p + (12 + min c.Length maxRW)))))
        = (d.drop p).take (4 + 4 + min c.Length maxRW + 4) ++
            d.drop (p + (12 + min c.Length maxRW)) := by
      rw [← e3, ← e2, ← e1]
      simp only [List.append_assoc]
    rw [hassoc]
    have e4 : d.drop (p + (12 + min c.Length maxRW))
        = (d.drop p).drop (4 + 4 + min c.Length maxRW + 4) := by
      rw [List.drop_drop]; congr 1; omega
    rw [e4, List.take_append_drop, List.take_append_drop]
  · rw [hdat, List.length_append, List.length_replicate, w2]
    omega

/-- Where the closed form gives a chunk, `readChunk` returns it. -/
theorem readChunk_of_chunkAt (f : File) (c : pngChunk) (h : chunkAt f.data f.pos = some c) :
    readChunk f = (some c, { f with pos := f.pos + (12 + min c.Length maxRW) }) := by
  obtain ⟨hd, hp, hw, h0, ho, hle⟩ := chunkAt_split f.data f.pos c h
  obtain ⟨_, _, _, _, hdat, _⟩ := chunkAt_fields f.data f.pos c h
  have w2 := window_full f.data (f.pos + 8) (min c.Length maxRW) (by omega)
  have hr := readChunk_window f (f.data.take f.pos) c.Typ
    ((f.data.drop (f.pos + 8)).take (min c.Length maxRW)) (putUint32 c.CRC) _ c.Length
    hd hp.symm hw.1 hw.2.2.1 h0 w2 rfl
  rw [hp, w2, be32_putUint32 _ hw.2.2.2, ← hdat] at hr
  rw [hr]
  congr 2
  cases c
  simp only at ho
  simp only [pngChunk.mk.injEq, and_true]
  exact ho.symm

/-- Where the closed form gives no chunk, `readChunk` is a read error. -/
theorem readChunk_of_chunkAt_none (f : File) (h : chunkAt f.data f.pos = none) :
    (readChunk f).1 = none := by
  rcases hr : readChunk f with ⟨_ | c, f1⟩
  · rfl
  · have := (readChunk_some_chunkAt f f1 c hr).1
    rw [h] at this
    simp at this

/-! ## What the decoder returns lies in the stream -/

theorem readLoop_laidOut (fuel : Nat) : ∀ (f : File) (last : pngChunk),
    LaidOut f.data f.pos (readLoop fuel f last).1 := by
  induction fuel with
  | zero => intro f last; simp [readLoop, LaidOut]
  | succ n ih =>
    intro f last
    unfold readLoop
    split
    · simp [LaidOut]
    · rcases hr : readChunk f with ⟨_ | c, f1⟩
      · simp [LaidOut]
      · obtain ⟨hc, hf1⟩ := readChunk_some_chunkAt f f1 c hr
        simp only [LaidOut]
        refine ⟨hc, ?_⟩
        have := ih f1 c
        rw [hf1] at this
        rw [hf1]
        exact this

theorem readChunks_laidOut (f : File) : LaidOut f.data 8 (readChunks f).1 := by
  unfold readChunks
  rw [seek_start]
  simp only
  rcases hr : readChunk { f with pos := 8 } with ⟨_ | c, f1⟩
  · simp [LaidOut]
  · obtain ⟨hc, hf1⟩ := readChunk_some_chunkAt _ f1 c hr
    simp only [LaidOut]
    refine ⟨hc, ?_⟩
    have := readLoop_laidOut f.data.length f1 c
    rw [hf1] at this
    rw [hf1]
    exact this

theorem laidOut_mem (d : List Byte) (cs : List pngChunk) : ∀ (p : Nat), LaidOut d p cs →
    ∀ c ∈ cs, ∃ q, p ≤ q ∧ chunkAt d q = some c := by
  induction cs with
  | nil => intro p _ c hc; simp at hc
  | cons a cs ih =>
    intro p h c hc
    simp only [LaidOut] at h
    rcases List.mem_cons.mp hc with rfl | hc
    · exact ⟨p, le_refl _, h.1⟩
    · obtain ⟨q, hq, hcq⟩ := ih _ h.2 c hc
      exact ⟨q, by omega, hcq⟩

theorem chunkAt_offset (d : List Byte) (p : Nat) (c : pngChunk) (h : chunkAt d p = some c) :
    c.Offset = (p : Int) := (chunkAt_split d p c h).2.2.2.2.1

theorem laidOut_chain (d : List Byte) (cs : List pngChunk) : ∀ (p : Nat), LaidOut d p cs →
    List.Chain' (fun a b : pngChunk =>
        b.Offset = a.Offset + 4 + 4 + (min a.Length maxRW : Nat) + 4) cs ∧
      ∀ c ∈ cs.head?, c.Offset = (p : Int) := by
  induction cs with
  | nil => intro p _; simp
  | cons a cs ih =>
    intro p h
    simp only [LaidOut] at h
    have ha := chunkAt_offset d p a h.1
    obtain ⟨hch, hhd⟩ := ih _ h.2
    refine ⟨?_, by simpa using ha⟩
    rw [List.chain'_cons']
    refine ⟨?_, hch⟩
    intro b hb
    rw [hhd b hb, ha]
    push_cast
    omega

theorem laidOut_consec (d : List Byte) (cs : List pngChunk) : ∀ (p i : Nat) (a b : pngChunk),
    LaidOut d p cs → cs[i]? = some a → cs[i + 1]? = some b →
    b.Offset = a.Offset + 4 + 4 + (min a.Length maxRW : Nat) + 4 := by
  induction cs with
  | nil => intro p i a b _ ha; simp at ha
  | cons x cs ih =>
    intro p i a b h ha hb
    simp only [LaidOut] at h
    cases i with
    | zero =>
      simp only [List.getElem?_cons_zero, Option.some.injEq] at ha
      subst ha
      simp only [List.getElem?_cons_succ] at hb
      cases cs with
      | nil => simp at hb
      | cons y cs' =>
        simp only [List.getElem?_cons_zero, Option.some.injEq] at hb
        subst hb
        simp only [LaidOut] at h
        rw [chunkAt_offset d _ y h.2.1, chunkAt_offset d _ x h.1]
        push_cast
        omega
    | succ j =>
      simp only [List.getElem?_cons_succ] at ha hb
      exact ih _ j a b h.2 ha hb

/-- Field layout of a decoded chunk, as the code has it: every chunk `c` returned by
`readChunks` starts at a position `p = c.Offset` of the stream, at or after byte 8;
`c.Length` is the big-endian value of the bytes at `[p, p+4)`, `c.Type` the 4 bytes at
`[p+4, p+8)`; with `n = min c.Length maxRW` the bytes one `Read` transfers, `c.Data` is
the `n` bytes at `[p+8, p+8+n)` followed by `c.Length - n` zero bytes, `c.CRC` the
big-endian value of the 4 bytes at `[p+8+n, p+12+n)`, and these positions lie inside
the stream. -/
theorem readChunks_layout (f : File) (c : pngChunk) (hc : c ∈ (readChunks f).1) :
    ∃ p : Nat, c.Offset = (p : Int) ∧ 8 ≤ p ∧
      p + 8 + min c.Length maxRW + 4 ≤ f.data.length ∧
      c.Length = be32 ((f.data.drop p).take 4) ∧
      c.Typ = (f.data.drop (p + 4)).take 4 ∧ c.Typ.length = 4 ∧
      c.Data = (f.data.drop (p + 8)).take (min c.Length maxRW) ++
        List.replicate (c.Length - min c.Length maxRW) 0 ∧
      c.Data.length = c.Length ∧
      c.CRC = be32 ((f.data.drop (p + 8 + min c.Length maxRW)).take 4) ∧
      ((f.data.drop (p + 8 + min c.Length maxRW)).take 4).length = 4 := by
  obtain ⟨p, hp, hcp⟩ := laidOut_mem f.data _ 8 (readChunks_laidOut f) c hc
  obtain ⟨ho, hle, hl, ht, hd, hcrc⟩ := chunkAt_fields f.data p c hcp
  obtain ⟨_, _, hw, _, _, _⟩ := chunkAt_split f.data p c hcp
  exact ⟨p, ho, hp, hle, hl, ht, hw.1, hd, hw.2.1, hcrc, window_full _ _ _ (by omega)⟩

/-- Offsets of the decoded chunks, as the code has it: the first chunk returned by
`readChunks`, when there is one, has `Offset = 8`, and of two consecutive returned
chunks the second has the `Offset` of the first plus 4 + 4 + 4 and the number of payload
bytes one `Read` transferred, `min Length maxRW`. -/
theorem readChunks_offsets (f : File) :
    (∀ c, (readChunks f).1[0]? = some c → c.Offset = 8) ∧
      ∀ (i : Nat) (a b : pngChunk), (readChunks f).1[i]? = some a →
        (readChunks f).1[i + 1]? = some b →
        b.Offset = a.Offset + 4 + 4 + (min a.Length maxRW : Nat) + 4 := by
  have hl := readChunks_laidOut f
  refine ⟨?_, fun i a b ha hb => laidOut_consec f.data _ 8 i a b hl ha hb⟩
  intro c hc
  have := (laidOut_chain f.data _ 8 hl).2 c (by rw [List.head?_eq_getElem?]; exact hc)
  simpa using this

/-! ## Termination -/

theorem readChunksWith_length (reader : File) :
    readChunksWith reader.data.length reader = readChunks reader := rfl

theorem window_congr (d1 d2 : List Byte) (p n : Nat)
    (h : ∀ i, p ≤ i → i < p + n → d1[i]? = d2[i]?) :
    (d1.drop p).take n = (d2.drop p).take n := by
  apply List.ext_getElem?
  intro j
  rw [List.getElem?_take, List.getElem?_take]
  split
  · rw [List.getElem?_drop, List.getElem?_drop]
    exact h _ (by omega) (by omega)
  · rfl

theorem chunkAt_congr (d1 d2 : List Byte) (p : Nat) (c : pngChunk)
    (hlen : d1.length = d2.length) (h : chunkAt d1 p = some c)
    (hsame : ∀ i, p ≤ i → i < p + 8 + min c.Length maxRW → d1[i]? = d2[i]?) :
    ∃ c2, chunkAt d2 p = some c2 ∧ c2.sansCRC = c.sansCRC ∧
      c2.CRC = be32 ((d2.drop (p + 8 + min c.Length maxRW)).take 4) := by
  obtain ⟨ho, hle, hl, ht, hd, hcrc⟩ := chunkAt_fields d1 p c h
  obtain ⟨_, _, _, h0, _, _⟩ := chunkAt_split d1 p c h
  have w0 : (d2.drop p).take 4 = (d1.drop p).take 4 :=
    (window_congr d1 d2 p 4 (fun i h1 h2 => hsame i h1 (by omega))).symm
  have w1 : (d2.drop (p + 4)).take 4 = (d1.drop (p + 4)).take 4 :=
    (window_congr d1 d2 (p + 4) 4 (fun i h1 h2 => hsame i (by omega) (by omega))).symm
  have w2 : (d2.drop (p + 8)).take (min c.Length maxRW) =
      (d1.drop (p + 8)).take (min c.Length maxRW) :=
    (window_congr d1 d2 (p + 8) (min c.Length maxRW)
      (fun i h1 h2 => hsame i (by omega) (by omega))).symm
  have hcond : be32 ((d2.drop p).take 4) ≠ 0 ∧
      p + 12 + min (be32 ((d2.drop p).take 4)) maxRW ≤ d2.length := by
    rw [w0, ← hl, ← hlen]; exact ⟨h0, by omega⟩
  refine ⟨_, by unfold chunkAt; rw [if_pos hcond], ?_, ?_⟩
  · simp only [pngChunk.sansCRC, w0, w1, ← hl, w2, ← ht, ← hd, ho]
  · simp only [w0, ← hl]

theorem chunkAt_none_congr (d1 d2 : List Byte) (p : Nat)
    (hlen : d1.length = d2.length) (h : chunkAt d1 p = none)
    (hsame : ∀ i, p ≤ i → i < p + 4 → d1[i]? = d2[i]?) : chunkAt d2 p = none := by
  have w0 := window_congr d1 d2 p 4 hsame
  unfold chunkAt at h ⊢
  rw [← w0, ← hlen]
  split at h
  · simp at h
  · next hn => rw [if_neg hn]

/-- The loop of `readChunks` on two contents of equal length that differ only before
the position or inside stored-CRC fields of the chunks decoded from the first. -/
theorem readLoop_crc_independent (d1 d2 : List Byte) (hlen : d1.length = d2.length)
    (fuel : Nat) : ∀ (p : Nat) (last1 last2 : pngChunk), last1.Typ = last2.Typ →
    (∀ i : Nat, d1[i]? ≠ d2[i]? → i < p ∨
      ∃ c ∈ (readLoop fuel ⟨d1, p⟩ last1).1,
        c.Offset + 8 + (min c.Length maxRW : Nat) ≤ (i : Int) ∧
          (i : Int) < c.Offset + 12 + (min c.Length maxRW : Nat)) →
    (readLoop fuel ⟨d2, p⟩ last2).1.map pngChunk.sansCRC =
      (readLoop fuel ⟨d1, p⟩ last1).1.map pngChunk.sansCRC := by
  induction fuel with
  | zero => intro p l1 l2 _ _; rfl
  | succ n ih =>
    intro p l1 l2 hty hdiff
    unfold readLoop at hdiff ⊢
    by_cases hend : l1.Typ = endChunk
    · rw [if_pos hend, if_pos (hty ▸ hend)]
    · rw [if_neg hend] at hdiff
      rw [if_neg hend, if_neg (hty ▸ hend)]
      rcases hc : chunkAt d1 p with _ | c
      · have r1 : (readChunk ⟨d1, p⟩).1 = none := readChunk_of_chunkAt_none ⟨d1, p⟩ hc
        rcases hr1 : readChunk ⟨d1, p⟩ with ⟨x, g⟩
        rw [hr1] at r1 hdiff
        simp only at r1
        subst r1
        simp only [List.not_mem_nil, false_and, exists_false, or_false] at hdiff
        have hc2 := chunkAt_none_congr d1 d2 p hlen hc (fun i h1 _ => by
          by_contra hne
          have := hdiff i hne
          omega)
        have r2 : (readChunk ⟨d2, p⟩).1 = none := readChunk_of_chunkAt_none ⟨d2, p⟩ hc2
        rcases hr2 : readChunk ⟨d2, p⟩ with ⟨y, g2⟩
        rw [hr2] at r2
        simp only at r2
        subst r2
        rfl
      · have r1 := readChunk_of_chunkAt ⟨d1, p⟩ c hc
        rw [r1] at hdiff ⊢
        simp only at hdiff ⊢
        obtain ⟨ho, hle, _⟩ := chunkAt_fields d1 p c hc
        have hlater : ∀ x ∈ (readLoop n ⟨d1, p + (12 + min c.Length maxRW)⟩ c).1,
            ((p + (12 + min c.Length maxRW) : Nat) : Int) ≤ x.Offset := by
          intro x hx
          obtain ⟨q, hq, hxq⟩ := laidOut_mem d1 _ _
            (readLoop_laidOut n ⟨d1, p + (12 + min c.Length maxRW)⟩ c) x hx
          rw [chunkAt_offset d1 q x hxq]
          exact_mod_cast hq
        obtain ⟨c2, hc2, hs2, _⟩ := chunkAt_congr d1 d2 p c hlen hc (fun i h1 h2 => by
          by_contra hne
          rcases hdiff i hne with h | ⟨x, hx, hx1, hx2⟩
          · omega
          · rcases List.mem_cons.mp hx with rfl | hx
            · rw [ho] at hx1; omega
            · have := hlater x hx
              push_cast at this
              omega)
        have r2 := readChunk_of_chunkAt ⟨d2, p⟩ c2 hc2
        rw [r2]
        simp only [List.map_cons, hs2]
        have hL : c2.Length = c.Length := by
          have := congrArg (fun t => t.2.1) hs2
          simpa [pngChunk.sansCRC] using this
        have hT : c.Typ = c2.Typ := by
          have := congrArg (fun t => t.2.2.1) hs2
          simpa [pngChunk.sansCRC] using this.symm
        rw [hL]
        congr 1
        apply ih (p + (12 + min c.Length maxRW)) c c2 hT
        intro i hne
        rcases hdiff i hne with h | ⟨x, hx, hx1, hx2⟩
        · left; omega
        · rcases List.mem_cons.mp hx with rfl | hx
          · left; rw [ho] at hx2; omega
          · exact Or.inr ⟨x, hx, hx1, hx2⟩

/-- The result of `readChunks` as one run of its loop from position 8. -/
theorem readChunks_eq_readLoop (f : File) (dummy : pngChunk) (hd : dummy.Typ ≠ endChunk) :
    (readChunks f).1 = (readLoop (f.data.length + 1) ⟨f.data, 8⟩ dummy).1 := by
  conv => rhs; unfold readLoop
  unfold readChunks
  rw [seek_start, if_neg hd]

theorem readChunks_crc_independent (f1 f2 : File) (hlen : f1.data.length = f2.data.length)
    (hdiff : ∀ i : Nat, f1.data[i]? ≠ f2.data[i]? →
      ∃ c ∈ (readChunks f1).1,
        c.Offset + 8 + (min c.Length maxRW : Nat) ≤ (i : Int) ∧
          (i : Int) < c.Offset + 12 + (min c.Length maxRW : Nat)) :
    (readChunks f2).1.map pngChunk.sansCRC = (readChunks f1).1.map pngChunk.sansCRC := by
  have hd : ({ Offset := 0, Length := 0, Typ := [], Data := [], CRC := 0 } : pngChunk).Typ
      ≠ endChunk := by decide
  rw [readChunks_eq_readLoop f1 _ hd, readChunks_eq_readLoop f2 _ hd, ← hlen]
  apply readLoop_crc_independent f1.data f2.data hlen _ 8 _ _ rfl
  intro i hne
  right
  have := hdiff i hne
  rw [readChunks_eq_readLoop f1 _ hd] at this
  exact this

/-- Decoding does not depend on the bytes read as stored CRCs: for two streams of equal
length that differ only in bytes which the decoder, on the first stream, reads as a
stored CRC (the four bytes after the part of a payload that one `Read` transfers, at
`[Offset+8+n, Offset+12+n)` with `n = min Length maxRW`), `readChunks` returns for the
second a list of the same length whose chunks have the same Offset, Length, Type and
Data. -/
theorem decoding_ignores_bytes_read_as_crc (d1 d2 : List Byte) (hlen : d1.length = d2.length)
    (hdiff : ∀ i : Nat, d1[i]? ≠ d2[i]? →
      ∃ c ∈ (readChunks (openFile d1)).1,
        c.Offset + 8 + (min c.Length maxRW : Nat) ≤ (i : Int) ∧
          (i : Int) < c.Offset + 12 + (min c.Length maxRW : Nat)) :
    (readChunks (openFile d2)).1.length = (readChunks (openFile d1)).1.length ∧
      (readChunks (openFile d2)).1.map pngChunk.sansCRC =
        (readChunks (openFile d1)).1.map pngChunk.sansCRC := by
  have h := readChunks_crc_independent (openFile d1) (openFile d2) hlen hdiff
  refine ⟨?_, h⟩
  have := congrArg List.length h
  simpa using this

/-! ## The CRC is a 32-bit value -/

theorem crcBit_lt (crc : Nat) (h : crc < 2 ^ 32) : crcBit crcIEEE crc < 2 ^ 32 := by
  have hs : crc >>> 1 < 2 ^ 32 := by
    rw [Nat.shiftRight_eq_div_pow]
    exact lt_of_le_of_lt (Nat.div_le_self _ _) h
  unfold crcBit
  split
  · exact Nat.xor_lt_two_pow hs (by decide)
  · exact hs

theorem crcTable_lt (i : Nat) (h : i < 2 ^ 32) : crcTable crcIEEE i < 2 ^ 32 := by
  unfold crcTable
  exact crcBit_lt _ (crcBit_lt _ (crcBit_lt _ (crcBit_lt _
    (crcBit_lt _ (crcBit_lt _ (crcBit_lt _ (crcBit_lt _ h)))))))

theorem crcLoop_lt (p : List Byte) : ∀ (crc : Nat), crc < 2 ^ 32 →
    crcLoop crcIEEE crc p < 2 ^ 32 := by
  induction p with
  | nil => intro crc h; exact h
  | cons v p ih =>
    intro crc h
    rw [crcLoop, List.foldl_cons]
    apply ih
    have h1 : crc % 256 < 2 ^ 32 := lt_of_lt_of_le (Nat.mod_lt _ (by norm_num)) (by norm_num)
    have h2 : v.val < 2 ^ 32 := lt_of_lt_of_le v.isLt (by norm_num)
    have h3 : crc >>> 8 < 2 ^ 32 := by
      rw [Nat.shiftRight_eq_div_pow]
      exact lt_of_le_of_lt (Nat.div_le_self _ _) h
    exact Nat.xor_lt_two_pow (crcTable_lt _ (Nat.xor_lt_two_pow h1 h2)) h3

theorem crc32Checksum_lt (p : List Byte) : crc32Checksum p < 2 ^ 32 := by
  unfold crc32Checksum
  exact Nat.xor_lt_two_pow (crcLoop_lt p _ (by decide)) (by decide)

/-! ## Writes of the correction loop, byte by byte -/

theorem overwrite_field (d : List Byte) (q : Nat) (bs : List Byte) (hb : bs.length = 4)
    (hq : q + 4 ≤ d.length) :
    overwrite d q bs = d.take q ++ (bs ++ d.drop (q + 4)) := by
  have hsplit : d = d.take q ++ ((d.drop q).take 4 ++ d.drop (q + 4)) := by
    have : d.drop (q + 4) = (d.drop q).drop 4 := by rw [List.drop_drop]
    rw [this, List.take_append_drop, List.take_append_drop]
  have hl : (d.take q).length = q := by rw [List.length_take]; omega
  have hw : ((d.drop q).take 4).length = bs.length := by
    rw [hb, List.length_take, List.length_drop]; omega
  have := overwrite_eq (d.take q) ((d.drop q).take 4) (d.drop (q + 4)) bs hw
  rw [hl, ← hsplit] at this
  exact this

theorem overwrite_length (d : List Byte) (q : Nat) (bs : List Byte) (hb : bs.length = 4)
    (hq : q + 4 ≤ d.length) : (overwrite d q bs).length = d.length := by
  rw [overwrite_field d q bs hb hq]
  simp only [List.length_append, List.length_take, List.length_drop, hb]
  omega

theorem overwrite_outside (d : List Byte) (q : Nat) (bs : List Byte) (hb : bs.length = 4)
    (hq : q + 4 ≤ d.length) (i : Nat) (hi : i < q ∨ q + 4 ≤ i) :
    (overwrite d q bs)[i]? = d[i]? := by
  rw [overwrite_field d q bs hb hq]
  have hl : (d.take q).length = q := by rw [List.length_take]; omega
  rcases hi with hi | hi
  · rw [List.getElem?_append_left (by omega), List.getElem?_take_of_lt hi]
  · rw [List.getElem?_append_right (by omega), List.getElem?_append_right (by omega),
      List.getElem?_drop, hl, hb]
    congr 1
    omega

theorem overwrite_window (d : List Byte) (q : Nat) (bs : List Byte) (hb : bs.length = 4)
    (hq : q + 4 ≤ d.length) : ((overwrite d q bs).drop q).take 4 = bs := by
  rw [overwrite_field d q bs hb hq]
  have hl : (d.take q).length = q := by rw [List.length_take]; omega
  rw [List.drop_left' hl, ← hb, List.take_left]

/-- Without wrap-around `CRCOffset` is `Offset + 8 + Length` (file offsets fit 63 bits). -/
theorem CRCOffset_in_file (c : pngChunk) (h0 : 0 ≤ c.Offset)
    (h1 : c.Offset + 8 + c.Length < 2 ^ 63) (hl : c.Length < 2 ^ 32 - 8) :
    c.CRCOffset = c.Offset + 8 + c.Length := by
  simp only [pngChunk.CRCOffset, wrapInt64]
  omega

theorem chunkAt_suffix_congr (d1 d2 : List Byte) (p : Nat) (hlen : d1.length = d2.length)
    (hsame : ∀ i, p ≤ i → d1[i]? = d2[i]?) : chunkAt d1 p = chunkAt d2 p := by
  have w : ∀ q n, p ≤ q → (d1.drop q).take n = (d2.drop q).take n := fun q n hq =>
    window_congr d1 d2 q n (fun i h1 _ => hsame i (by omega))
  unfold chunkAt
  rw [w p 4 (le_refl _), w (p + 4) 4 (by omega), w (p + 8) _ (by omega),
    w (p + 8 + min (be32 ((d2.drop p).take 4)) maxRW) 4 (by omega), hlen]

theorem laidOut_congr (d1 d2 : List Byte) (hlen : d1.length = d2.length)
    (cs : List pngChunk) : ∀ (p : Nat), (∀ i, p ≤ i → d1[i]? = d2[i]?) →
    LaidOut d1 p cs → LaidOut d2 p cs := by
  induction cs with
  | nil => intro p _ _; trivial
  | cons c cs ih =>
    intro p hsame h
    simp only [LaidOut] at h ⊢
    refine ⟨by rw [← chunkAt_suffix_congr d1 d2 p hlen hsame]; exact h.1, ?_⟩
    exact ih _ (fun i hi => hsame i (by omega)) h.2

/-- The loop body on a chunk decoded at `p` whose payload one `Read` transfers whole: the
content keeps its length, changes at most inside the chunk's stored-CRC field, and that
field then holds the CRC-32. -/
theorem correctChunk_at (st : LoopState) (p : Nat) (c : pngChunk)
    (hc : chunkAt st.file.data p = some c) (hsize : st.file.data.length < 2 ^ 63)
    (hcap : c.Length ≤ maxRW) :
    (correctChunk noFail st c).file.data.length = st.file.data.length ∧
      (∀ i, i < p + 8 + c.Length ∨ p + 12 + c.Length ≤ i →
        (correctChunk noFail st c).file.data[i]? = st.file.data[i]?) ∧
      ((correctChunk noFail st c).file.data.drop (p + 8 + c.Length)).take 4
        = putUint32 c.CalculateCRC := by
  obtain ⟨ho, hle, _, _, _, hcrc⟩ := chunkAt_fields st.file.data p c hc
  rw [Nat.min_eq_left hcap] at hle hcrc
  have hl : c.Length < 2 ^ 32 - 8 := by have := maxRW_lt; omega
  have hoff : c.CRCOffset = ((p + 8 + c.Length : Nat) : Int) := by
    rw [CRCOffset_in_file c (by rw [ho]; omega) (by rw [ho]; omega) hl, ho]
    push_cast
    rfl
  have hdata := correctChunk_data st c (by rw [hoff]; omega)
  rw [hoff, Int.toNat_ofNat] at hdata
  rw [hdata]
  by_cases hv : c.CRCIsValid = true
  · rw [if_pos hv]
    refine ⟨rfl, fun _ _ => rfl, ?_⟩
    have he : c.CRC = c.CalculateCRC := by simpa [pngChunk.CRCIsValid] using hv
    have h4 : ((st.file.data.drop (p + 8 + c.Length)).take 4).length = 4 := by
      rw [List.length_take, List.length_drop]; omega
    rw [← he, hcrc, putUint32_be32 _ h4]
  · rw [if_neg hv]
    have h4 : (putUint32 c.CalculateCRC).length = 4 := rfl
    exact ⟨overwrite_length _ _ _ h4 (by omega),
      fun i hi => overwrite_outside _ _ _ h4 (by omega) i (by omega),
      overwrite_window _ _ _ h4 (by omega)⟩

/-- The correction loop over chunks decoded one after the other from `p`, each with a
payload that one `Read` transfers whole. -/
theorem correction_fold (cs : List pngChunk) : ∀ (p : Nat) (st : LoopState),
    LaidOut st.file.data p cs → st.file.data.length < 2 ^ 63 →
    (∀ c ∈ cs, c.Length ≤ maxRW) →
    (cs.foldl (correctChunk noFail) st).file.data.length = st.file.data.length ∧
      (∀ i : Nat, (cs.foldl (correctChunk noFail) st).file.data[i]? ≠ st.file.data[i]? →
        ∃ c ∈ cs, c.Offset + 8 + c.Length ≤ (i : Int) ∧ (i : Int) < c.Offset + 12 + c.Length) ∧
      ∀ c ∈ cs, ((cs.foldl (correctChunk noFail) st).file.data.drop
          (c.Offset.toNat + 8 + c.Length)).take 4 = putUint32 c.CalculateCRC := by
  induction cs with
  | nil =>
    intro p st _ _ _
    exact ⟨rfl, fun i h => absurd rfl h, fun c hc => by simp at hc⟩
  | cons a cs ih =>
    intro p st hlaid hsize hlen
    simp only [LaidOut] at hlaid
    rw [Nat.min_eq_left (hlen a (List.mem_cons_self _ _))] at hlaid
    obtain ⟨ha, hrest⟩ := hlaid
    have hao := chunkAt_offset _ p a ha
    obtain ⟨s1, s2, s3⟩ := correctChunk_at st p a ha hsize (hlen a (List.mem_cons_self _ _))
    have hlaid1 : LaidOut (correctChunk noFail st a).file.data (p + (12 + a.Length)) cs :=
      laidOut_congr _ _ s1.symm cs _ (fun i hi => (s2 i (Or.inr (by omega))).symm) hrest
    obtain ⟨t1, t2, t3⟩ := ih (p + (12 + a.Length)) (correctChunk noFail st a) hlaid1
      (by rw [s1]; exact hsize) (fun c hc => hlen c (List.mem_cons_of_mem _ hc))
    have hlater : ∀ x ∈ cs, ((p + (12 + a.Length) : Nat) : Int) ≤ x.Offset := by
      intro x hx
      obtain ⟨q, hq, hxq⟩ := laidOut_mem _ _ _ hlaid1 x hx
      rw [chunkAt_offset _ q x hxq]
      exact_mod_cast hq
    rw [List.foldl_cons]
    refine ⟨by rw [t1, s1], ?_, ?_⟩
    · intro i hne
      by_cases h1 : (cs.foldl (correctChunk noFail) (correctChunk noFail st a)).file.data[i]?
          = (correctChunk noFail st a).file.data[i]?
      · rw [h1] at hne
        refine ⟨a, List.mem_cons_self _ _, ?_⟩
        have : ¬ (i < p + 8 + a.Length ∨ p + 12 + a.Length ≤ i) := fun h => hne (s2 i h)
        rw [hao]
        omega
      · obtain ⟨c, hc, hc1, hc2⟩ := t2 i h1
        exact ⟨c, List.mem_cons_of_mem _ hc, hc1, hc2⟩
    · intro c hc
      rcases List.mem_cons.mp hc with rfl | hc
      · have hsame : ∀ i, i < p + (12 + c.Length) →
            (cs.foldl (correctChunk noFail) (correctChunk noFail st c)).file.data[i]?
              = (correctChunk noFail st c).file.data[i]? := by
          intro i hi
          by_contra hne
          obtain ⟨x, hx, hx1, _⟩ := t2 i hne
          have := hlater x hx
          push_cast at this
          omega
        have hw := window_congr _ _ (p + 8 + c.Length) 4
          (fun i _ h2 => hsame i (by omega))
        rw [hao, Int.toNat_ofNat, hw]
        exact s3
      · exact t3 c hc

/-- The result of `readChunks` depends on the content only, not on where the handle
stands. -/
theorem readChunks_data_only (f g : File) (h : f.data = g.data) :
    readChunks f = readChunks g := by
  unfold readChunks
  rw [seek_start, seek_start, h]

/-- The content after processing a file that passes the gate. -/
theorem process_data_eq (data : List Byte) (hgate : (isPng (openFile data)).1 = true) :
    ∃ st : LoopState, st.file.data = data ∧
      (process data).2 =
        ((readChunks (openFile data)).1.foldl (correctChunk noFail) st).file.data := by
  have hg : ¬ (isPng (openFile data)).1 = false := by rw [hgate]; simp
  have hr : readChunks (isPng (openFile data)).2 = readChunks (openFile data) :=
    readChunks_data_only _ _ (isPng_data _)
  refine ⟨{ corrected := false, file := (readChunks (openFile data)).2, writes := [] },
    readChunks_data _, ?_⟩
  simp only [process, walkFile, if_neg hg, correctionLoop, hr]

/-- Repair postcondition for payloads that one `Read` transfers whole: for every file
(of a size that fits a 63-bit offset) that passes the gate and in which every decoded
chunk has `Length` at most `maxRW`, after processing every chunk returned by `readChunks`
has in the file, at `[Offset+8+Length, Offset+12+Length)`, the big-endian CRC-32 of its
type and payload, and decoding the processed file again yields only chunks for which
`CRCIsValid()` is true. -/
theorem repair_of_le_maxRW (data : List Byte) (hsize : data.length < 2 ^ 63)
    (hgate : (isPng (openFile data)).1 = true)
    (hlen : ∀ c ∈ (readChunks (openFile data)).1, c.Length ≤ maxRW) :
    (∀ c ∈ (readChunks (openFile data)).1,
        ((process data).2.drop (c.Offset.toNat + 8 + c.Length)).take 4
          = putUint32 c.CalculateCRC) ∧
      ∀ c ∈ (readChunks (openFile (process data).2)).1, c.CRCIsValid = true := by
  obtain ⟨st, hst, hout⟩ := process_data_eq data hgate
  have hlaid : LaidOut st.file.data 8 (readChunks (openFile data)).1 := by
    rw [hst]; exact readChunks_laidOut (openFile data)
  obtain ⟨t1, t2, t3⟩ := correction_fold _ 8 st hlaid (by rw [hst]; exact hsize) hlen
  rw [← hout, hst] at t1 t2
  rw [← hout] at t3
  refine ⟨t3, ?_⟩
  intro c2 hc2
  have hind := readChunks_crc_independent (openFile data) (openFile (process data).2)
    t1.symm (fun i hne => by
      obtain ⟨c, hc, h1, h2⟩ := t2 i (fun h => hne h.symm)
      exact ⟨c, hc, by rw [Nat.min_eq_left (hlen c hc)]; exact ⟨h1, h2⟩⟩)
  have hmem : c2.sansCRC ∈ (readChunks (openFile data)).1.map pngChunk.sansCRC := by
    rw [← hind]; exact List.mem_map_of_mem _ hc2
  obtain ⟨c, hc, hsame⟩ := List.mem_map.mp hmem
  simp only [pngChunk.sansCRC, Prod.mk.injEq] at hsame
  obtain ⟨ho, hl, ht, hd⟩ := hsame
  obtain ⟨p, hp, _, _, _, _, _, _, _, hcrc, _⟩ :=
    readChunks_layout (openFile (process data).2) c2 hc2
  have hw := t3 c hc
  rw [ho, hl, hp, Int.toNat_ofNat] at hw
  simp only [openFile] at hcrc
  rw [Nat.min_eq_left (by rw [← hl]; exact hlen c hc), hw, pngChunk.CalculateCRC,
    be32_putUint32 _ (crc32Checksum_lt _)] at hcrc
  simp only [pngChunk.CRCIsValid, hcrc, pngChunk.CalculateCRC, pngChunk.Bytes, ht, hd,
    beq_self_eq_true]

/-- The gate in closed form: the bytes at offsets 1, 2, 3 are "PNG". -/
theorem isPng_eq (f : File) :
    (isPng f).1 = decide ((f.data.drop 1).take 3 = pngMagic) := by
  have hs : (f.seek 1).2 = { f with pos := 1 } := by simp [File.seek]
  have hl := (window_length { f with pos := 1 } 3).1
  simp only at hl
  unfold isPng
  rw [hs]
  unfold File.read
  have h3m : min 3 maxRW = 3 := by unfold maxRW; norm_num
  simp only [h3m]
  generalize (f.data.drop 1).take 3 = w at hl ⊢
  have h30 : ¬ (3 = 0) := by decide
  rw [if_neg h30]
  by_cases h0 : w.length = 0
  · rw [if_pos h0]
    have hw : w = [] := List.length_eq_zero.mp h0
    subst hw
    simp [pngMagic]
  · rw [if_neg h0]
    by_cases h3 : w.length = 3
    · simp only [h3, Nat.sub_self, List.replicate_zero, List.append_nil]
      rfl
    · have hne : ¬ w = pngMagic := by
        intro h; rw [h] at h3; exact h3 rfl
      have hne2 : ¬ w ++ List.replicate (3 - w.length) (0 : Byte) = [0x50, 0x4e, 0x47] := by
        intro h
        have hlen : w.length = 1 ∨ w.length = 2 := by omega
        rcases hlen with h1 | h2
        · obtain ⟨a, rfl⟩ := List.length_eq_one.mp h1
          simp at h
        · obtain ⟨a, b, rfl⟩ := List.length_eq_two.mp h2
          simp at h
      simp only [hne, hne2, decide_False]

/-- C19 (format gate): `isPng` returns true exactly when the file has at least 4 bytes
and the bytes at offsets 1, 2, 3 are 'P', 'N', 'G'; two files that agree on the bytes
at offsets 1 to 3 get the same answer, whatever byte 0, the bytes from offset 4 on and
the position of the handle are. -/
theorem isPng_iff_magic (f : File) :
    ((isPng f).1 = true ↔
        4 ≤ f.data.length ∧ f.data[1]? = some 0x50 ∧ f.data[2]? = some 0x4e ∧
          f.data[3]? = some 0x47) ∧
      ∀ g : File, (g.data.drop 1).take 3 = (f.data.drop 1).take 3 →
        (isPng g).1 = (isPng f).1 := by
  constructor
  · rw [isPng_eq, decide_eq_true_iff]
    constructor
    · intro h
      have hl := congrArg List.length h
      simp only [List.length_take, List.length_drop, pngMagic, List.length_cons,
        List.length_nil] at hl
      have h1 := congrArg (fun l => l[0]?) h
      have h2 := congrArg (fun l => l[1]?) h
      have h3 := congrArg (fun l => l[2]?) h
      simp [List.getElem?_take, List.getElem?_drop, pngMagic] at h1 h2 h3
      exact ⟨by omega, h1, h2, h3⟩
    · rintro ⟨hl, h1, h2, h3⟩
      apply List.ext_getElem?
      intro n
      rcases n with _ | _ | _ | n
      · simp [List.getElem?_take, List.getElem?_drop, pngMagic, h1]
      · simp [List.getElem?_take, List.getElem?_drop, pngMagic, h2]
      · simp [List.getElem?_take, List.getElem?_drop, pngMagic, h3]
      · simp [List.getElem?_take, List.getElem?_drop, pngMagic]
  · intro g hg
    rw [isPng_eq, isPng_eq, hg]

/-- C14 (corrected flag): for a file that passes the gate, `corrected` is reported
exactly when some chunk returned by `readChunks` has a stored CRC different from
`CalculateCRC()`; the seeks and writes made are those of the chunks with a different
CRC, in order, and on a chunk whose stored CRC equals `CalculateCRC()` the loop body
makes no seek and no write and leaves the state as it is. -/
theorem corrected_iff_some_invalid (wfail : Nat → Bool) (file : File)
    (hgate : (isPng file).1 = true) :
    ((walkFile wfail file).corrected = true ↔
        ∃ c ∈ (readChunks (isPng file).2).1, c.CRC ≠ c.CalculateCRC) ∧
      (walkFile wfail file).writes =
        ((readChunks (isPng file).2).1.filter (fun c => decide (c.CRC ≠ c.CalculateCRC))).map
          (fun c => (c.CRCOffset, c.CalculateCRC)) ∧
      ∀ (st : LoopState) (c : pngChunk), c.CRC = c.CalculateCRC →
        correctChunk wfail st c = st := by
  have hg : ¬ (isPng file).1 = false := by rw [hgate]; simp
  obtain ⟨h1, h2⟩ := correctionLoop_fold_flag wfail (readChunks (isPng file).2).1
    { corrected := false, file := (readChunks (isPng file).2).2, writes := [] }
  have hv : (fun c : pngChunk => !c.CRCIsValid) =
      fun c => decide (c.CRC ≠ c.CalculateCRC) := by
    funext c
    by_cases h : c.CRC = c.CalculateCRC <;> simp [pngChunk.CRCIsValid, h]
  have hc : (walkFile wfail file).corrected = (correctionLoop wfail
      (readChunks (isPng file).2).2 (readChunks (isPng file).2).1).corrected := by
    unfold walkFile; rw [if_neg hg]
  have hw : (walkFile wfail file).writes = (correctionLoop wfail
      (readChunks (isPng file).2).2 (readChunks (isPng file).2).1).writes := by
    unfold walkFile; rw [if_neg hg]
  rw [hv] at h1 h2
  refine ⟨?_, ?_, ?_⟩
  · rw [hc, correctionLoop, h1, Bool.false_or, List.any_eq_true]
    simp only [decide_eq_true_eq]
  · rw [hw, correctionLoop, h2, List.nil_append]
  · intro st c hc
    simp [correctChunk, pngChunk.CRCIsValid, hc]

set_option maxRecDepth 100000 in
/-- Witness of `corrected_iff_some_invalid`: `fileTwoBad`, which passes the gate. -/
theorem corrected_iff_some_invalid_witness :
    (isPng (openFile fileTwoBad)).1 = true ∧
      (walkFile noFail (openFile fileTwoBad)).writes =
        ((readChunks (isPng (openFile fileTwoBad)).2).1.filter
          (fun c => decide (c.CRC ≠ c.CalculateCRC))).map
          (fun c => (c.CRCOffset, c.CalculateCRC)) :=
  ⟨by decide, (corrected_iff_some_invalid noFail (openFile fileTwoBad) (by decide)).2.1⟩

/-! ## The terminal marker -/

/-- After a chunk of type IEND the loop reads nothing. -/
theorem readLoop_after_IEND (fuel : Nat) (f : File) (last : pngChunk)
    (h : last.Typ = endChunk) : (readLoop fuel f last).1 = [] := by
  cases fuel with
  | zero => rfl
  | succ n => simp [readLoop, h]

/-- In `last :: readLoop ...` a chunk of type IEND has nothing after it. -/
theorem readLoop_IEND_last (fuel : Nat) : ∀ (f : File) (last : pngChunk)
    (pre post : List pngChunk) (c : pngChunk),
    last :: (readLoop fuel f last).1 = pre ++ c :: post → c.Typ = endChunk → post = [] := by
  induction fuel with
  | zero =>
    intro f last pre post c h hc
    simp only [readLoop] at h
    cases pre with
    | nil => simp at h; exact h.2
    | cons a pre' => simp at h
  | succ n ih =>
    intro f last pre post c h hc
    cases pre with
    | nil =>
      simp only [List.nil_append, List.cons.injEq] at h
      rw [← h.2, readLoop_after_IEND _ _ _ (by rw [h.1]; exact hc)]
    | cons a pre' =>
      simp only [List.cons_append, List.cons.injEq] at h
      have h2 := h.2
      unfold readLoop at h2
      split at h2
      · simp at h2
      · split at h2
        · simp at h2
        · next chunk f1 hr =>
          simp only at h2
          exact ih f1 chunk pre' post c h2 hc

theorem readChunks_IEND_last (f : File) (pre post : List pngChunk) (c : pngChunk)
    (h : (readChunks f).1 = pre ++ c :: post) (hc : c.Typ = endChunk) : post = [] := by
  unfold readChunks at h
  simp only at h
  split at h
  · cases pre <;> simp at h
  · next chunk f1 hr =>
    simp only at h
    exact readLoop_IEND_last _ f1 chunk pre post c h hc

/-- C16 (stop at the first terminal marker): in the list `readChunks` returns, a chunk
of type IEND has no chunk after it (no chunk is decoded after it), and no chunk before
it has type IEND: IEND occurs only as the last element. -/
theorem IEND_only_last (f : File) (pre post : List pngChunk) (c : pngChunk)
    (h : (readChunks f).1 = pre ++ c :: post) (hc : c.Typ = endChunk) :
    post = [] ∧ ∀ x ∈ pre, x.Typ ≠ endChunk := by
  refine ⟨readChunks_IEND_last f pre post c h hc, ?_⟩
  intro x hx hxt
  obtain ⟨p1, p2, rfl⟩ := List.append_of_mem hx
  have := readChunks_IEND_last f p1 (p2 ++ c :: post) x (by rw [h]; simp) hxt
  simp at this

set_option maxRecDepth 100000 in
/-- Witness of `IEND_only_last`: in `fileAfterIEND` the chunk that follows the IEND
chunk is not decoded. -/
theorem IEND_only_last_witness :
    (readChunks (openFile fileAfterIEND)).1 =
        [goodIDAT] ++ { iendWithData with Offset := 21 } :: [] ∧
      (([] : List pngChunk) = [] ∧ ∀ x ∈ [goodIDAT], x.Typ ≠ endChunk) :=
  ⟨by decide, IEND_only_last (openFile fileAfterIEND) [goodIDAT] []
    { iendWithData with Offset := 21 } (by decide) rfl⟩

/-! ## The table-driven CRC of the code is the standard CRC-32 -/

theorem crcBit_eq_spec (c : Nat) : crcBit crcIEEE c = crc32SpecBit c := by
  simp only [crcBit, crc32SpecBit, crcIEEE, Nat.shiftRight_eq_div_pow, pow_one]

/-- A bit step does not look at what lies above bit 0: the high part just moves down. -/
theorem crc32SpecBit_high (y h m : Nat) :
    crc32SpecBit (y ^^^ (h * 2 ^ (m + 1))) = crc32SpecBit y ^^^ (h * 2 ^ m) := by
  have hz : h * 2 ^ (m + 1) = 2 * (h * 2 ^ m) := by rw [pow_succ]; ring
  have hpar : (y ^^^ (h * 2 ^ (m + 1))) % 2 = y % 2 := by
    rw [Nat.xor_mod_two_eq, hz]; omega
  have hdiv : (y ^^^ (h * 2 ^ (m + 1))) / 2 = (y / 2) ^^^ (h * 2 ^ m) := by
    rw [Nat.xor_div_two, hz]; congr 1; omega
  unfold crc32SpecBit
  rw [hpar, hdiv]
  split
  · rw [Nat.xor_assoc, Nat.xor_comm (h * 2 ^ m), ← Nat.xor_assoc]
  · rfl

theorem crc32SpecBit_iter_high (k : Nat) : ∀ (y h m : Nat),
    crc32SpecBit^[k] (y ^^^ (h * 2 ^ (m + k))) = crc32SpecBit^[k] y ^^^ (h * 2 ^ m) := by
  induction k with
  | zero => intro y h m; rfl
  | succ k ih =>
    intro y h m
    rw [Function.iterate_succ_apply, Function.iterate_succ_apply,
      show m + (k + 1) = (m + k) + 1 by omega, crc32SpecBit_high, ih]

theorem split_low_byte (x : Nat) : x = (x % 256) ^^^ ((x / 256) * 2 ^ 8) := by
  apply Nat.eq_of_testBit_eq
  intro i
  have h1 : x % 256 = x % 2 ^ 8 := rfl
  have h2 : (x / 256) * 2 ^ 8 = (x >>> 8) <<< 8 := by
    rw [Nat.shiftLeft_eq, Nat.shiftRight_eq_div_pow]
  rw [h1, h2, Nat.testBit_xor, Nat.testBit_mod_two_pow, Nat.testBit_shiftLeft,
    Nat.testBit_shiftRight]
  by_cases hi : i < 8
  · have h8 : ¬ 8 ≤ i := by omega
    simp [hi, h8]
  · have : 8 + (i - 8) = i := by omega
    simp [hi, this, Nat.le_of_not_lt hi]

/-- Eight bit steps are one table look-up on the low byte, XORed with the rest. -/
theorem crcTable_step (x : Nat) :
    crcTable crcIEEE (x % 256) ^^^ (x / 256) = crc32SpecBit^[8] x := by
  have ht : crcTable crcIEEE (x % 256) = crc32SpecBit^[8] (x % 256) := by
    simp only [crcTable, crcBit_eq_spec, Function.iterate_succ, Function.iterate_zero,
      Function.comp_apply, id_eq]
  have h := crc32SpecBit_iter_high 8 (x % 256) (x / 256) 0
  rw [Nat.zero_add, pow_zero, Nat.mul_one, ← split_low_byte] at h
  rw [ht, h]

theorem xor_byte_low (c : Nat) (b : Byte) : (c ^^^ b.val) % 256 = (c % 256) ^^^ b.val := by
  apply Nat.eq_of_testBit_eq
  intro i
  have h1 : ∀ y : Nat, y % 256 = y % 2 ^ 8 := fun _ => rfl
  rw [h1, h1, Nat.testBit_mod_two_pow, Nat.testBit_xor, Nat.testBit_xor,
    Nat.testBit_mod_two_pow]
  by_cases hi : i < 8
  · simp [hi]
  · have hb : b.val.testBit i = false :=
      Nat.testBit_lt_two_pow (lt_of_lt_of_le b.isLt
        (by
          have : 2 ^ 8 ≤ 2 ^ i := Nat.pow_le_pow_right (by norm_num) (by omega)
          simpa using this))
    simp [hi, hb]

theorem xor_byte_high (c : Nat) (b : Byte) : (c ^^^ b.val) / 256 = c >>> 8 := by
  have h : (c ^^^ b.val) >>> 8 = c >>> 8 := by
    apply Nat.eq_of_testBit_eq
    intro i
    have hb : b.val.testBit (8 + i) = false :=
      Nat.testBit_lt_two_pow (lt_of_lt_of_le b.isLt
        (by
          have : 2 ^ 8 ≤ 2 ^ (8 + i) := Nat.pow_le_pow_right (by norm_num) (by omega)
          simpa using this))
    rw [Nat.testBit_shiftRight, Nat.testBit_shiftRight, Nat.testBit_xor, hb]
    simp
  rw [Nat.shiftRight_eq_div_pow] at h
  exact h

/-- The byte step of `crc32.Update` is the byte step of the standard CRC-32. -/
theorem crcLoop_step (c : Nat) (b : Byte) :
    crcTable crcIEEE ((c % 256) ^^^ b.val) ^^^ (c >>> 8) = crc32SpecByte c b := by
  rw [crc32SpecByte, ← crcTable_step, xor_byte_low, xor_byte_high]

theorem crcLoop_eq_spec (p : List Byte) : ∀ c : Nat,
    crcLoop crcIEEE c p = p.foldl crc32SpecByte c := by
  induction p with
  | nil => intro c; rfl
  | cons b p ih =>
    intro c
    rw [crcLoop, List.foldl_cons, List.foldl_cons, crcLoop_step]
    exact ih _

theorem crc32Checksum_eq_spec (p : List Byte) : crc32Checksum p = crc32Spec p := by
  unfold crc32Checksum crc32Spec
  rw [crcLoop_eq_spec]
  rfl

set_option maxRecDepth 100000 in
/-- C13 (checksum coverage): for every chunk `CalculateCRC()` is the standard CRC-32
(IEEE polynomial, reflected, initial value all-ones, final XOR all-ones) of
`Type ++ Data`; it is the same for two chunks with the same Type and Data, whatever
their Offset, Length and stored CRC; `CRCIsValid()` is true exactly when the stored
CRC equals that value; type "IEND" with empty data gives 0xAE426082. The standard
CRC-32 is pinned by its check value 0xCBF43926 on "123456789". -/
theorem CalculateCRC_is_standard_crc32 (c : pngChunk) :
    c.CalculateCRC = crc32Spec (c.Typ ++ c.Data) ∧
      (∀ c2 : pngChunk, c2.Typ = c.Typ → c2.Data = c.Data →
        c2.CalculateCRC = c.CalculateCRC) ∧
      (c.CRCIsValid = true ↔ c.CRC = crc32Spec (c.Typ ++ c.Data)) ∧
      goodIEND.Typ = endChunk ∧ goodIEND.Data = [] ∧ goodIEND.CalculateCRC = 0xae426082 ∧
      crc32Spec crcCheckInput = 0xcbf43926 := by
  have h1 : ∀ x : pngChunk, x.CalculateCRC = crc32Spec (x.Typ ++ x.Data) := fun x => by
    rw [pngChunk.CalculateCRC, pngChunk.Bytes, crc32Checksum_eq_spec]
  refine ⟨h1 c, ?_, ?_, rfl, rfl, by decide, by decide⟩
  · intro c2 ht hd
    rw [h1, h1, ht, hd]
  · rw [← h1]
    simp [pngChunk.CRCIsValid]

/-! ## A payload longer than one `Read` transfers -/

theorem maxRW_small : maxRW + 64 < 2 ^ 32 - 8 := by unfold maxRW; norm_num

/-- The result of `readChunks` when the loop stops after the second chunk. -/
theorem readChunks_two (f f1 f2 : File) (c1 c2 : pngChunk)
    (h1 : readChunk ⟨f.data, 8⟩ = (some c1, f1)) (ht : c1.Typ ≠ endChunk)
    (h2 : readChunk f1 = (some c2, f2))
    (h3 : c2.Typ = endChunk ∨ (readChunk f2).1 = none) : (readChunks f).1 = [c1, c2] := by
  have hp := readChunk_some_pos _ f1 c1 h1
  obtain ⟨n, hn⟩ : ∃ n, f.data.length = n + 1 := ⟨f.data.length - 1, by
    have := hp.2.2
    simp only at this
    omega⟩
  unfold readChunks
  rw [seek_start, hn]
  simp only [h1, readLoop, ht, if_false, h2, readLoop_stop _ f2 c2 h3]

/-- A chunk with type bytes FF FF FF FF and a payload longer than one `Read` transfers
that starts with `maxRW + 4` zero bytes, right after the header: the decoder returns
`hugeChunk len`, whatever the rest of the payload and the stored CRC are, and goes on
reading at `maxRW + 20`, inside the payload. -/
theorem readChunk_long (f : File) (len : Nat) (rest : List Byte)
    (hd : f.data = pngHeader ++ (putUint32 len ++ ([255, 255, 255, 255] ++
      (List.replicate maxRW 0 ++ ([0, 0, 0, 0] ++ rest)))))
    (hcap : maxRW < len) (hlen : len < 2 ^ 32) :
    readChunk ⟨f.data, 8⟩ = (some (hugeChunk len), ⟨f.data, maxRW + 20⟩) := by
  have r1 := readChunk_window ⟨f.data, 8⟩ pngHeader [255, 255, 255, 255]
    (List.replicate maxRW 0) [0, 0, 0, 0] rest len hd rfl rfl hlen (by omega)
    (by rw [List.length_replicate, Nat.min_eq_right (by omega)]) rfl
  have e : maxRW + (len - maxRW) = len := by omega
  have h8 : (pngHeader.length : Int) = 8 := rfl
  have h8' : pngHeader.length = 8 := rfl
  have hb : be32 [0, 0, 0, 0] = 0 := rfl
  have e2 : 8 + (12 + maxRW) = maxRW + 20 := by omega
  rw [List.length_replicate, zeros_append, e, h8, h8', hb, e2] at r1
  exact r1

theorem longFile_eq (crc : Nat) :
    longFile crc = pngHeader ++ (putUint32 (maxRW + 17) ++ ([255, 255, 255, 255] ++
      (List.replicate maxRW 0 ++ ([0, 0, 0, 0] ++ (encodeChunk iendWithData ++
        (putUint32 crc ++ encodeChunk goodIEND)))))) := by
  simp only [longFile, encodeChunks, longChunk, List.append_assoc, List.append_nil]
  rw [encodeChunk]
  simp only [List.append_assoc]

theorem prefix_length (len : Nat) :
    (pngHeader ++ (putUint32 len ++ ([255, 255, 255, 255] ++
      (List.replicate maxRW 0 ++ [0, 0, 0, 0])))).length = maxRW + 20 := by
  simp only [List.length_append, List.length_replicate, putUint32_length]
  simp only [List.length_cons, List.length_nil, pngHeader]
  omega

/-- What the decoder returns on `longFile crc`: the first chunk with an all-zero payload
and stored CRC 0, and as second chunk the bytes of `iendWithData` that lie inside the
first chunk's payload; the chunk IEND of the container is not reached. -/
theorem readChunks_longFile (f : File) (crc : Nat) (hd : f.data = longFile crc) :
    (readChunks f).1 =
      [hugeChunk (maxRW + 17), { iendWithData with Offset := ((maxRW + 20 : Nat) : Int) }] := by
  have hs := longFile_eq crc
  have hmax := maxRW_small
  have r1 := readChunk_long f (maxRW + 17)
    (encodeChunk iendWithData ++ (putUint32 crc ++ encodeChunk goodIEND))
    (by rw [hd, hs]) (by omega) (by omega)
  have r2 := readChunk_encoded ⟨f.data, maxRW + 20⟩
    (pngHeader ++ (putUint32 (maxRW + 17) ++ ([255, 255, 255, 255] ++
      (List.replicate maxRW 0 ++ [0, 0, 0, 0]))))
    (putUint32 crc ++ encodeChunk goodIEND) iendWithData
    (by simp only [hd, hs, List.append_assoc])
    (by rw [prefix_length]) (by decide) (by decide)
    (by have := maxRW_pos; show 1 ≤ maxRW; omega)
  rw [prefix_length] at r2
  exact readChunks_two f _ _ _ _ r1 (by decide) r2 (Or.inl rfl)

theorem prefix_length_crc (len : Nat) :
    (pngHeader ++ (putUint32 len ++ ([255, 255, 255, 255] ++
      (List.replicate maxRW 0 ++ ([0, 0, 0, 0] ++ encodeChunk iendWithData))))).length
      = maxRW + 33 := by
  have h13 : (encodeChunk iendWithData).length = 13 := rfl
  simp only [List.length_append, List.length_replicate, putUint32_length, h13]
  simp only [List.length_cons, List.length_nil, pngHeader]
  omega

/-- The content of `longFile crc` around the stored-CRC field of its first chunk. -/
theorem longFile_split (crc : Nat) :
    longFile crc = (pngHeader ++ (putUint32 (maxRW + 17) ++ ([255, 255, 255, 255] ++
      (List.replicate maxRW 0 ++ ([0, 0, 0, 0] ++ encodeChunk iendWithData))))) ++
        (putUint32 crc ++ encodeChunk goodIEND) := by
  rw [longFile_eq]
  simp only [List.append_assoc]

/-- Writing FF FF FF FF at `maxRW + 33`, the stored-CRC field of the first chunk of
`longFile crc`. -/
theorem overwrite_longFile (crc : Nat) :
    overwrite (longFile crc) (maxRW + 33) [255, 255, 255, 255] = longFile 0xffffffff := by
  have h := overwrite_eq (pngHeader ++ (putUint32 (maxRW + 17) ++ ([255, 255, 255, 255] ++
      (List.replicate maxRW 0 ++ ([0, 0, 0, 0] ++ encodeChunk iendWithData)))))
    (putUint32 crc) (encodeChunk goodIEND) [255, 255, 255, 255] (by rfl)
  have hput : putUint32 0xffffffff = [255, 255, 255, 255] := by decide
  rw [prefix_length_crc] at h
  rw [longFile_split, longFile_split, hput]
  exact h

set_option maxRecDepth 100000 in
theorem iendWithData_valid (o : Int) :
    ({ iendWithData with Offset := o } : pngChunk).CRCIsValid = true := by
  rw [CRCIsValid_offset]; decide

/-- Per-file processing of a content that passes the gate, in terms of the decoder and
the correction loop. -/
theorem process_of_gate (data : List Byte) (hgate : (isPng (openFile data)).1 = true) :
    process data =
      ((correctionLoop noFail (readChunks (openFile data)).2
          (readChunks (openFile data)).1).corrected,
       (correctionLoop noFail (readChunks (openFile data)).2
          (readChunks (openFile data)).1).file.data) := by
  have hg : ¬ (isPng (openFile data)).1 = false := by rw [hgate]; simp
  have hr : readChunks (isPng (openFile data)).2 = readChunks (openFile data) :=
    readChunks_data_only _ _ (isPng_data _)
  simp only [process, walkFile, if_neg hg, hr]

theorem correctionLoop_two (wfail : Nat → Bool) (f : File) (c1 c2 : pngChunk) :
    correctionLoop wfail f [c1, c2] =
      correctChunk wfail
        (correctChunk wfail { corrected := false, file := f, writes := [] } c1) c2 := rfl

theorem correctChunk_valid (wfail : Nat → Bool) (st : LoopState) (c : pngChunk)
    (h : c.CRCIsValid = true) : correctChunk wfail st c = st := by
  simp [correctChunk, h]

theorem correctChunk_invalid_flag (wfail : Nat → Bool) (st : LoopState) (c : pngChunk)
    (h : c.CRCIsValid = false) : (correctChunk wfail st c).corrected = true := by
  simp [correctChunk, h]

/-- The content after the loop body on a chunk with a wrong CRC, on a healthy device. -/
theorem correctChunk_invalid_data (f : File) (c : pngChunk) (q v : Nat)
    (hv : c.CRCIsValid = false) (hoff : c.CRCOffset = (q : Int)) (hcrc : c.CalculateCRC = v) :
    (correctChunk noFail { corrected := false, file := f, writes := [] } c).file.data =
      overwrite f.data q (putUint32 v) := by
  have h := correctChunk_data { corrected := false, file := f, writes := [] } c
    (by rw [hoff]; omega)
  rw [h, hv, hoff, hcrc, Int.toNat_ofNat]
  simp

theorem hugeChunk_invalid (len : Nat) : (hugeChunk len).CRCIsValid = false := by
  rw [pngChunk.CRCIsValid, hugeChunk_crc]
  rfl

theorem longFile_gate (crc : Nat) : (isPng (openFile (longFile crc))).1 = true := by
  rw [longFile, isPng_pngHeader]

theorem longFile_decoded (crc : Nat) :
    (readChunks (openFile (longFile crc))).1 =
      [hugeChunk (maxRW + 17), { iendWithData with Offset := ((maxRW + 20 : Nat) : Int) }] :=
  readChunks_longFile _ crc rfl

/-- Processing `longFile crc`: the first decoded chunk has stored CRC 0 and CRC-32
0xFFFFFFFF, so the file is reported corrected and FF FF FF FF is written into the
stored-CRC field of its first chunk, whatever stood there. -/
theorem process_longFile (crc : Nat) : process (longFile crc) = (true, longFile 0xffffffff) := by
  have hoff : (hugeChunk (maxRW + 17)).CRCOffset = ((maxRW + 33 : Nat) : Int) := by
    have := maxRW_small
    simp only [pngChunk.CRCOffset, wrapInt64, hugeChunk]
    omega
  have hput : putUint32 0xffffffff = [255, 255, 255, 255] := by decide
  have e : (openFile (longFile crc)).data = longFile crc := rfl
  rw [process_of_gate _ (longFile_gate crc), longFile_decoded, correctionLoop_two,
    correctChunk_valid _ _ _ (iendWithData_valid _),
    correctChunk_invalid_flag _ _ _ (hugeChunk_invalid _),
    correctChunk_invalid_data _ _ (maxRW + 33) 0xffffffff (hugeChunk_invalid _) hoff
      (hugeChunk_crc _),
    readChunks_data, e, hput, overwrite_longFile]

set_option maxRecDepth 100000 in
theorem longChunk_tail_crc :
    crcLoop crcIEEE 0 ([0, 0, 0, 0] ++ encodeChunk iendWithData) ^^^ 0xffffffff
      = longChunkCRC := by
  decide

theorem longChunk_crc (crc : Nat) :
    crc32Checksum ((longChunk crc).Typ ++ (longChunk crc).Data) = longChunkCRC := by
  have h4 : crcLoop crcIEEE (0 ^^^ 0xffffffff) [255, 255, 255, 255] = 0 := by decide
  have happ : crcLoop crcIEEE (0 ^^^ 0xffffffff) ([255, 255, 255, 255] ++
      (List.replicate maxRW 0 ++ ([0, 0, 0, 0] ++ encodeChunk iendWithData)))
      = crcLoop crcIEEE (crcLoop crcIEEE
          (crcLoop crcIEEE (0 ^^^ 0xffffffff) [255, 255, 255, 255]) (List.replicate maxRW 0))
          ([0, 0, 0, 0] ++ encodeChunk iendWithData) := by
    simp only [crcLoop, List.foldl_append]
  have e : (longChunk crc).Typ ++ (longChunk crc).Data = [255, 255, 255, 255] ++
      (List.replicate maxRW 0 ++ ([0, 0, 0, 0] ++ encodeChunk iendWithData)) := rfl
  rw [e, crc32Checksum, happ, h4, crcLoop_zeros, longChunk_tail_crc]

theorem longChunk_wellFormed (crc : Nat) (hcrc : crc < 2 ^ 32) : (longChunk crc).WellFormed := by
  have h13 : (encodeChunk iendWithData).length = 13 := rfl
  have hmax := maxRW_small
  refine ⟨rfl, ?_, ?_, hcrc⟩
  · simp only [longChunk, List.length_append, List.length_replicate, h13]
    simp only [List.length_cons, List.length_nil]
  · show maxRW + 17 < 2 ^ 32
    omega

theorem longFile_ne : longFile 0xffffffff ≠ longFile longChunkCRC := by
  intro h
  rw [longFile_eq, longFile_eq] at h
  have h1 := List.append_cancel_left (List.append_cancel_left (List.append_cancel_left
    (List.append_cancel_left (List.append_cancel_left (List.append_cancel_left h)))))
  have h2 := List.append_cancel_right h1
  revert h2
  decide

set_option maxRecDepth 100000 in
/-- C1 (round-trip), at a failing input: `longFile longChunkCRC` passes the gate and is
a well-formed container of two chunks, the second of type IEND, both with the right
stored CRC; the payload of the first has `maxRW + 17` bytes (`maxRW = 2^30`). Processing
reports `corrected = true` and replaces the right stored CRC 47 71 09 26 of the first
chunk by FF FF FF FF. -/
theorem long_payload_roundtrip_fails :
    (∀ c ∈ [longChunk longChunkCRC, goodIEND],
        c.WellFormed ∧ c.CRC = crc32Checksum (c.Typ ++ c.Data)) ∧
      goodIEND.Typ = endChunk ∧
      longFile longChunkCRC = pngHeader ++ encodeChunks [longChunk longChunkCRC, goodIEND] ∧
      (isPng (openFile (longFile longChunkCRC))).1 = true ∧
      process (longFile longChunkCRC) = (true, longFile 0xffffffff) ∧
      longFile 0xffffffff ≠ longFile longChunkCRC := by
  refine ⟨?_, rfl, rfl, by rw [longFile, isPng_pngHeader], process_longFile _, longFile_ne⟩
  intro c hc
  simp only [List.mem_cons, List.mem_singleton, List.not_mem_nil, or_false] at hc
  rcases hc with rfl | rfl
  · exact ⟨longChunk_wellFormed _ (by decide), (longChunk_crc _).symm⟩
  · decide

/-- The bytes of `longFile crc` where the layout has the payload of the first chunk. -/
theorem longFile_payload (crc : Nat) :
    ((longFile crc).drop (8 + 8)).take (maxRW + 17) =
      List.replicate maxRW 0 ++ ([0, 0, 0, 0] ++ encodeChunk iendWithData) := by
  have hs : longFile crc = (pngHeader ++ (putUint32 (maxRW + 17) ++ [255, 255, 255, 255])) ++
      ((List.replicate maxRW 0 ++ ([0, 0, 0, 0] ++ encodeChunk iendWithData)) ++
        (putUint32 crc ++ encodeChunk goodIEND)) := by
    rw [longFile_eq]
    simp only [List.append_assoc]
  have hp : (pngHeader ++ (putUint32 (maxRW + 17) ++ ([255, 255, 255, 255] : List Byte))).length
      = 8 + 8 := rfl
  have hl : (List.replicate maxRW (0 : Byte) ++ ([0, 0, 0, 0] ++ encodeChunk iendWithData)).length
      = maxRW + 17 := (longChunk_wellFormed 0 (by decide)).2.1
  rw [hs, ← hp, ← hl]
  exact window_eq _ _ _

/-- The bytes of `longFile crc` where the layout has the stored CRC of the first chunk. -/
theorem longFile_crcField (crc : Nat) :
    ((longFile crc).drop (8 + 8 + (maxRW + 17))).take 4 = putUint32 crc := by
  have hs : longFile crc = (pngHeader ++ (putUint32 (maxRW + 17) ++ ([255, 255, 255, 255] ++
      (List.replicate maxRW 0 ++ ([0, 0, 0, 0] ++ encodeChunk iendWithData))))) ++
        (putUint32 crc ++ encodeChunk goodIEND) := by
    rw [longFile_eq]
    simp only [List.append_assoc]
  have hp := prefix_length_crc (maxRW + 17)
  have e : 8 + 8 + (maxRW + 17) = maxRW + 33 := by omega
  have h4 : (putUint32 crc).length = 4 := rfl
  rw [hs, e, ← hp, ← h4]
  exact window_eq _ _ _

theorem zeros_ne_payload :
    List.replicate (maxRW + 17) (0 : Byte) ≠
      List.replicate maxRW 0 ++ ([0, 0, 0, 0] ++ encodeChunk iendWithData) := by
  intro h
  rw [← zeros_append] at h
  have h1 := List.append_cancel_left h
  revert h1
  decide

/-- C11 (decoder field layout), at a failing input: in `longFile longChunkCRC` the first
chunk declares `maxRW + 17` payload bytes (`maxRW = 2^30`), all present. The chunk that
`readChunks` returns for it has an all-zero `Data`, while the stream bytes at
`[Offset+8, Offset+8+Length)` end with 00 00 00 01 49 45 4E 44 05 A1 70 BB 6E, and has
`CRC = 0`, while the 4 bytes that follow the payload are 47 71 09 26. -/
theorem long_payload_layout_fails :
    (readChunks (openFile (longFile longChunkCRC))).1 =
        [hugeChunk (maxRW + 17),
          { iendWithData with Offset := ((maxRW + 20 : Nat) : Int) }] ∧
      (hugeChunk (maxRW + 17)).Offset = 8 ∧ (hugeChunk (maxRW + 17)).Length = maxRW + 17 ∧
      (hugeChunk (maxRW + 17)).Data = List.replicate (maxRW + 17) 0 ∧
      ((longFile longChunkCRC).drop (8 + 8)).take (maxRW + 17) =
        List.replicate maxRW 0 ++ ([0, 0, 0, 0] ++ encodeChunk iendWithData) ∧
      (hugeChunk (maxRW + 17)).Data ≠ ((longFile longChunkCRC).drop (8 + 8)).take (maxRW + 17) ∧
      (hugeChunk (maxRW + 17)).CRC = 0 ∧
      be32 (((longFile longChunkCRC).drop (8 + 8 + (maxRW + 17))).take 4) = 0x47710926 ∧
      (hugeChunk (maxRW + 17)).CRC ≠
        be32 (((longFile longChunkCRC).drop (8 + 8 + (maxRW + 17))).take 4) := by
  have hb : be32 (putUint32 longChunkCRC) = 0x47710926 := by decide
  refine ⟨readChunks_longFile _ _ rfl, rfl, rfl, rfl, longFile_payload _, ?_, rfl, ?_, ?_⟩
  · rw [longFile_payload]
    exact zeros_ne_payload
  · rw [longFile_crcField, hb]
  · rw [longFile_crcField, hb]
    show (0 : Nat) ≠ 0x47710926
    decide

/-- C12 (offset chain), at a failing input: of the two chunks that `readChunks` returns
for `longFile longChunkCRC` the first has `Offset = 8` and `Length = maxRW + 17`, and the
second has `Offset = maxRW + 20` (1073741844), not
`8 + 4 + 4 + (maxRW + 17) + 4 = maxRW + 37` (1073741861). -/
theorem long_payload_offset_chain_fails :
    (readChunks (openFile (longFile longChunkCRC))).1 =
        [hugeChunk (maxRW + 17),
          { iendWithData with Offset := ((maxRW + 20 : Nat) : Int) }] ∧
      (hugeChunk (maxRW + 17)).Offset = 8 ∧ (hugeChunk (maxRW + 17)).Length = maxRW + 17 ∧
      ({ iendWithData with Offset := ((maxRW + 20 : Nat) : Int) } : pngChunk).Offset =
        ((maxRW + 20 : Nat) : Int) ∧
      (hugeChunk (maxRW + 17)).Offset + 4 + 4 + ((hugeChunk (maxRW + 17)).Length : Int) + 4 =
        ((maxRW + 37 : Nat) : Int) ∧
      ({ iendWithData with Offset := ((maxRW + 20 : Nat) : Int) } : pngChunk).Offset ≠
        (hugeChunk (maxRW + 17)).Offset + 4 + 4 + ((hugeChunk (maxRW + 17)).Length : Int) + 4 := by
  refine ⟨readChunks_longFile _ _ rfl, rfl, rfl, rfl, ?_, ?_⟩
  · show (8 : Int) + 4 + 4 + ((maxRW + 17 : Nat) : Int) + 4 = ((maxRW + 37 : Nat) : Int)
    omega
  · show ((maxRW + 20 : Nat) : Int) ≠ (8 : Int) + 4 + 4 + ((maxRW + 17 : Nat) : Int) + 4
    omega

/-- C18 (repair postcondition), at a failing input: `longFile 0` passes the gate and both
decoded chunks have `Length` below `2^32 - 8`. Processing writes FF FF FF FF into the
stored-CRC field of the first chunk, while the CRC-32 of the type and payload in the
file is 0x47710926; decoding the processed file again yields the same first chunk, with
stored CRC 0, for which `CRCIsValid()` is false. -/
theorem long_payload_not_repaired :
    (isPng (openFile (longFile 0))).1 = true ∧
      (readChunks (openFile (longFile 0))).1 =
        [hugeChunk (maxRW + 17),
          { iendWithData with Offset := ((maxRW + 20 : Nat) : Int) }] ∧
      (∀ c ∈ (readChunks (openFile (longFile 0))).1, c.Length < 2 ^ 32 - 8) ∧
      process (longFile 0) = (true, longFile 0xffffffff) ∧
      ((process (longFile 0)).2.drop (8 + 8 + (maxRW + 17))).take 4 = [255, 255, 255, 255] ∧
      crc32Checksum ((longChunk 0).Typ ++ (longChunk 0).Data) = 0x47710926 ∧
      (readChunks (openFile (process (longFile 0)).2)).1 =
        [hugeChunk (maxRW + 17),
          { iendWithData with Offset := ((maxRW + 20 : Nat) : Int) }] ∧
      (hugeChunk (maxRW + 17)).CRCIsValid = false := by
  have hmax := maxRW_small
  have hput : putUint32 0xffffffff = [255, 255, 255, 255] := by decide
  have hv : (hugeChunk (maxRW + 17)).CRCIsValid = false := by
    simp only [pngChunk.CRCIsValid, hugeChunk_crc]
    rfl
  refine ⟨by rw [longFile, isPng_pngHeader], readChunks_longFile _ _ rfl, ?_,
    process_longFile 0, ?_, longChunk_crc 0, ?_, hv⟩
  · rw [readChunks_longFile _ 0 rfl]
    intro c hc
    simp only [List.mem_cons, List.mem_singleton, List.not_mem_nil, or_false] at hc
    rcases hc with rfl | rfl
    · show maxRW + 17 < 2 ^ 32 - 8
      omega
    · show 1 < 2 ^ 32 - 8
      norm_num
  · rw [process_longFile, longFile_crcField, hput]
  · rw [process_longFile]
    exact readChunks_longFile _ _ rfl

theorem tagFile_length (ty : List Byte) (hty : ty.length = 4) :
    (tagFile ty).length = maxRW + 33 := by
  simp only [tagFile, List.length_append, List.length_replicate, putUint32_length, hty]
  simp only [List.length_cons, List.length_nil, pngHeader]
  omega

/-- What the decoder returns on `tagFile ty`: the chunk with an all-zero payload and
stored CRC 0, and a second chunk whose type is the content of the first chunk's
stored-CRC field. -/
theorem readChunks_tagFile (ty : List Byte) (hty : ty.length = 4) :
    (readChunks (openFile (tagFile ty))).1 = [hugeChunk (maxRW + 8), tagChunk ty] := by
  have hmax := maxRW_small
  have r1 := readChunk_long (openFile (tagFile ty)) (maxRW + 8)
    (putUint32 1 ++ (ty ++ [5, 0, 0, 0, 0])) rfl (by omega) (by omega)
  have hz : putUint32 0 = [0, 0, 0, 0] := by decide
  have r2 := readChunk_encoded ⟨(openFile (tagFile ty)).data, maxRW + 20⟩
    (pngHeader ++ (putUint32 (maxRW + 8) ++ ([255, 255, 255, 255] ++
      (List.replicate maxRW 0 ++ [0, 0, 0, 0])))) [] (tagChunk ty)
    (by simp only [openFile, tagFile, encodeChunk, tagChunk, hz, List.append_assoc,
      List.append_nil, List.cons_append, List.nil_append])
    (by rw [prefix_length]) ⟨hty, rfl, by norm_num [tagChunk], by norm_num [tagChunk]⟩
    (by show (1 : Nat) ≠ 0; decide)
    (by have := maxRW_pos; show 1 ≤ maxRW; omega)
  rw [prefix_length] at r2
  have r3 : (readChunk ⟨(openFile (tagFile ty)).data, maxRW + 20 + (12 + (tagChunk ty).Length)⟩).1
      = none :=
    readChunk_eof _ (by
      show (tagFile ty).length ≤ maxRW + 20 + (12 + 1)
      rw [tagFile_length ty hty])
  exact readChunks_two (openFile (tagFile ty)) _ _ _ _ r1 (by decide) r2 (Or.inr r3)

/-- Two contents that differ only in a middle part agree outside that part. -/
theorem getElem_middle_ne (p a b s : List Byte) (hab : a.length = b.length) (i : Nat)
    (h : (p ++ (a ++ s))[i]? ≠ (p ++ (b ++ s))[i]?) :
    p.length ≤ i ∧ i < p.length + a.length := by
  constructor
  · by_contra hlt
    apply h
    rw [List.getElem?_append_left (by omega), List.getElem?_append_left (by omega)]
  · by_contra hge
    apply h
    rw [List.getElem?_append_right (by omega), List.getElem?_append_right (by omega),
      List.getElem?_append_right (by omega), List.getElem?_append_right (by omega), hab]

theorem tagFile_split (ty : List Byte) :
    tagFile ty = (pngHeader ++ (putUint32 (maxRW + 8) ++ ([255, 255, 255, 255] ++
      (List.replicate maxRW 0 ++ ([0, 0, 0, 0] ++ putUint32 1))))) ++
        (ty ++ [5, 0, 0, 0, 0]) := by
  rw [tagFile]
  simp only [List.append_assoc]

theorem tagFile_prefix_length :
    (pngHeader ++ (putUint32 (maxRW + 8) ++ ([255, 255, 255, 255] ++
      (List.replicate maxRW 0 ++ (([0, 0, 0, 0] : List Byte) ++ putUint32 1))))).length
      = maxRW + 24 := by
  have h8 : pngHeader.length = 8 := rfl
  have h4 : ([255, 255, 255, 255] : List Byte).length = 4 := rfl
  have h0 : ([0, 0, 0, 0] : List Byte).length = 4 := rfl
  rw [List.length_append, List.length_append, List.length_append, List.length_append,
    List.length_append, List.length_replicate, putUint32_length, putUint32_length, h8, h4, h0]
  omega

/-- Two streams `tagFile a` and `tagFile b` agree outside the 4 bytes from `maxRW + 24`. -/
theorem tagFile_diff (a b : List Byte) (ha : a.length = 4) (hb : b.length = 4) (i : Nat)
    (h : (tagFile a)[i]? ≠ (tagFile b)[i]?) : maxRW + 24 ≤ i ∧ i < maxRW + 28 := by
  rw [tagFile_split a, tagFile_split b] at h
  have hm := getElem_middle_ne _ a b [5, 0, 0, 0, 0] (by rw [ha, hb]) i h
  rw [tagFile_prefix_length, ha] at hm
  exact hm

/-- C17 (decoding does not depend on checksum values), at a failing input: the streams
`tagFile "IDAT"` and `tagFile "tEXt"` have equal length and differ only in the 4 bytes
at `[maxRW + 24, maxRW + 28)`, the stored-CRC field `[Offset+8+Length, Offset+12+Length)`
of the first chunk that `readChunks` returns (`Offset = 8`, `Length = maxRW + 8`). The
second chunk returned has type IDAT for the one stream and type tEXt for the other. -/
theorem long_payload_crc_field_decoded :
    (tagFile [0x49, 0x44, 0x41, 0x54]).length = (tagFile [0x74, 0x45, 0x58, 0x74]).length ∧
      (∀ i : Nat,
        (tagFile [0x49, 0x44, 0x41, 0x54])[i]? ≠ (tagFile [0x74, 0x45, 0x58, 0x74])[i]? →
        ∃ c ∈ (readChunks (openFile (tagFile [0x49, 0x44, 0x41, 0x54]))).1,
          c.Offset + 8 + c.Length ≤ (i : Int) ∧ (i : Int) < c.Offset + 12 + c.Length) ∧
      (readChunks (openFile (tagFile [0x49, 0x44, 0x41, 0x54]))).1 =
        [hugeChunk (maxRW + 8), tagChunk [0x49, 0x44, 0x41, 0x54]] ∧
      (readChunks (openFile (tagFile [0x74, 0x45, 0x58, 0x74]))).1 =
        [hugeChunk (maxRW + 8), tagChunk [0x74, 0x45, 0x58, 0x74]] ∧
      (tagChunk [0x74, 0x45, 0x58, 0x74]).Typ ≠ (tagChunk [0x49, 0x44, 0x41, 0x54]).Typ ∧
      (readChunks (openFile (tagFile [0x74, 0x45, 0x58, 0x74]))).1.map pngChunk.sansCRC ≠
        (readChunks (openFile (tagFile [0x49, 0x44, 0x41, 0x54]))).1.map pngChunk.sansCRC := by
  have ra := readChunks_tagFile [0x49, 0x44, 0x41, 0x54] rfl
  have rb := readChunks_tagFile [0x74, 0x45, 0x58, 0x74] rfl
  have la := tagFile_length [0x49, 0x44, 0x41, 0x54] rfl
  have lb := tagFile_length [0x74, 0x45, 0x58, 0x74] rfl
  have hty : (tagChunk [0x74, 0x45, 0x58, 0x74]).Typ ≠ (tagChunk [0x49, 0x44, 0x41, 0x54]).Typ := by
    show ([0x74, 0x45, 0x58, 0x74] : List Byte) ≠ [0x49, 0x44, 0x41, 0x54]
    decide
  refine ⟨by rw [la, lb], ?_, ra, rb, hty, ?_⟩
  · intro i hne
    obtain ⟨h1, h2⟩ := tagFile_diff [0x49, 0x44, 0x41, 0x54] [0x74, 0x45, 0x58, 0x74] rfl rfl i hne
    refine ⟨hugeChunk (maxRW + 8), by rw [ra]; exact List.mem_cons_self _ _, ?_, ?_⟩
    · show (8 : Int) + 8 + ((maxRW + 8 : Nat) : Int) ≤ (i : Int)
      omega
    · show (i : Int) < (8 : Int) + 12 + ((maxRW + 8 : Nat) : Int)
      omega
  · rw [ra, rb]
    intro h
    rw [List.map_cons, List.map_cons, List.map_cons, List.map_cons] at h
    have h2 := (List.cons.inj (List.cons.inj h).2).1
    exact hty (congrArg (fun t => t.2.2.1) h2)


end PngCrcFix
